import Mathlib

/-!
Verification of the competitive-sudoku agent in team29_A0/sudokuai.py.

The Python module defines a single entry point, compute_best_move, whose
nested helper functions (is_legal_move, move_score, apply_move_to_state,
evaluate, alpha_beta) all close over the root game state it receives.
This file embeds those helpers as pure Lean functions.  Data that lives in
the external competitive_sudoku library (SudokuBoard, GameState and their
accessors) is modelled from the specification, since that library is not
part of this repository; every function taken from sudokuai.py mirrors the
Python source line by line.

Conventions of the embedding:
* a board is a flat row-major list of cell values, 0 meaning empty;
* a move is a triple (i, j, value);
* Python floats are modelled by rationals (the literal 0.01 becomes 1/100);
* the float values -inf / +inf used by alpha_beta are modelled by the
  bottom and top elements of WithBot (WithTop Rat);
* wall-clock time is modelled by an abstract clock, a predicate on tick
  indices, one tick being consumed by every read of the clock.
-/

/-- Modelled from the spec (section 3, Data Model): an N times N grid of
integer cell values, 0 meaning empty, with region dimensions m (height) and
n (width) such that m * n = N.  Cells are stored row-major. -/
structure SudokuBoard where
  m : Nat
  n : Nat
  cells : List Nat
deriving DecidableEq

/-- Modelled from the spec: the grid size N, the product of the region
dimensions. -/
def SudokuBoard.N (b : SudokuBoard) : Nat := b.m * b.n

/-- Modelled from the spec: region height accessor. -/
def SudokuBoard.region_height (b : SudokuBoard) : Nat := b.m

/-- Modelled from the spec: region width accessor. -/
def SudokuBoard.region_width (b : SudokuBoard) : Nat := b.n

/-- Modelled from the spec: cell read accessor, row-major; out-of-range
reads return the empty value 0. -/
def SudokuBoard.get (b : SudokuBoard) (sq : Nat × Nat) : Nat :=
  b.cells.getD (sq.1 * b.N + sq.2) 0

/-- Modelled from the spec: cell write, used by apply_move_to_state. -/
def SudokuBoard.put (b : SudokuBoard) (sq : Nat × Nat) (v : Nat) : SudokuBoard :=
  { b with cells := b.cells.set (sq.1 * b.N + sq.2) v }

/-- A move as manipulated by sudokuai.py: a (row, column, value) triple. -/
abbrev Mv := Nat × Nat × Nat

/-- Modelled from the spec (section 3): a board snapshot, the taboo
(square, value) pairs, the move history, per-player scores, whose turn it
is (1 or 2), and an optional per-player allowed-squares restriction
(absence meaning the whole board is eligible). -/
structure GameState where
  board : SudokuBoard
  taboo_moves : List ((Nat × Nat) × Nat)
  moves : List ((Nat × Nat) × Nat)
  scores : List Int
  current_player : Nat
  allowed_player1 : Option (List (Nat × Nat))
  allowed_player2 : Option (List (Nat × Nat))
deriving DecidableEq

/-- Modelled from the spec (section 6, GameState accessor): the
allowed-squares query for the player currently to move; it returns the
restriction list of that player, or none for unrestricted. -/
def GameState.player_squares (gs : GameState) : Option (List (Nat × Nat)) :=
  if gs.current_player = 1 then gs.allowed_player1 else gs.allowed_player2

/-- The whole-board square list [(i, j) for i in range(N) for j in range(N)]
that sudokuai.py substitutes when player_squares() is None. -/
def fullGrid (N : Nat) : List (Nat × Nat) :=
  (List.range N).flatMap (fun i => (List.range N).map (fun j => (i, j)))

/-- The defaulted allowed-squares list: gs.player_squares(), or the whole
grid when the restriction is absent.  The grid size N is the one of the
root state captured by the closure in sudokuai.py. -/
def playerSquaresD (root gs : GameState) : List (Nat × Nat) :=
  match gs.player_squares with
  | some l => l
  | none => fullGrid root.board.N

/-- Embeds row_has_value from sudokuai.py: scans the N cells of row i of
the captured board for a non-empty occurrence of value. -/
def row_has_value (b : SudokuBoard) (i value : Nat) : Bool :=
  (List.range b.N).any (fun col => decide (b.get (i, col) ≠ 0) && decide (b.get (i, col) = value))

/-- Embeds col_has_value from sudokuai.py. -/
def col_has_value (b : SudokuBoard) (j value : Nat) : Bool :=
  (List.range b.N).any (fun row => decide (b.get (row, j) ≠ 0) && decide (b.get (row, j) = value))

/-- Embeds block_has_value from sudokuai.py: scans the m times n cells of
the region containing (i, j). -/
def block_has_value (b : SudokuBoard) (i j value : Nat) : Bool :=
  (List.range' ((i / b.m) * b.m) b.m).any (fun r =>
    (List.range' ((j / b.n) * b.n) b.n).any (fun c =>
      decide (b.get (r, c) ≠ 0) && decide (b.get (r, c) = value)))

/-- Embeds is_legal_move from sudokuai.py.  The Python function is a
closure over the state handed to compute_best_move; here that state is
the explicit parameter s.  The conjunction of Boolean tests mirrors the
chain of early returns of the source. -/
def is_legal_move (s : GameState) (i j value : Nat) : Bool :=
  decide ((i, j) ∈ playerSquaresD s s) &&
  decide (s.board.get (i, j) = 0) &&
  (decide (1 ≤ value) && decide (value ≤ s.board.N)) &&
  !(s.taboo_moves.any (fun t => decide (t.1 = (i, j)) && decide (t.2 = value))) &&
  !(row_has_value s.board i value) &&
  !(col_has_value s.board j value) &&
  !(block_has_value s.board i j value)

/-- Embeds move_score from sudokuai.py: one pass over the move's row
(counting the target column unconditionally), one over its column
(skipping the target row), and one over its region (counting the target
cell unconditionally).  The value parameter is accepted and ignored, as in
the source. -/
def move_score (b : SudokuBoard) (i j _value : Nat) : Nat :=
  ((List.range b.N).foldl (fun score col =>
      if col = j then score + 1
      else if b.get (i, col) ≠ 0 then score + 1 else score) 0) +
  ((List.range b.N).foldl (fun score row =>
      if row = i then score
      else if b.get (row, j) ≠ 0 then score + 1 else score) 0) +
  ((List.range' ((i / b.m) * b.m) b.m).foldl (fun score r =>
      (List.range' ((j / b.n) * b.n) b.n).foldl (fun sc c =>
        if r = i ∧ c = j then sc + 1
        else if b.get (r, c) ≠ 0 then sc + 1 else sc) score) 0)

/-- Embeds the legal-move collection loop of compute_best_move and the
identical enumeration at the head of alpha_beta: squares come from the
defaulted allowed list of gs, emptiness is tested on gs's board, and each
candidate value 1..N is vetted by is_legal_move, which closes over the
root state. -/
def nextMoves (root gs : GameState) : List Mv :=
  (playerSquaresD root gs).flatMap (fun sq =>
    if gs.board.get sq ≠ 0 then []
    else ((List.range' 1 root.board.N).filter
        (fun v => is_legal_move root sq.1 sq.2 v)).map (fun v => (sq.1, sq.2, v)))

/-- The legal_moves list built by compute_best_move before the search. -/
def legalMovesList (root : GameState) : List Mv := nextMoves root root

/-- Embeds apply_move_to_state from sudokuai.py: deep-copy the state, put
the value on the board, append the move to the history, and flip the
current player to 3 - current. -/
def apply_move_to_state (gs : GameState) (mv : Mv) : GameState :=
  { gs with
    board := gs.board.put (mv.1, mv.2.1) mv.2.2
    moves := gs.moves ++ [((mv.1, mv.2.1), mv.2.2)]
    current_player := 3 - gs.current_player }

/-- Iterated application of apply_move_to_state along a move list. -/
def applyMoves (gs : GameState) : List Mv → GameState
  | [] => gs
  | mv :: rest => applyMoves (apply_move_to_state gs mv) rest

/-- Embeds the filled-cell count of evaluate: the number of non-empty
cells of gs's board, ranging over the root state's grid size N as the
Python closure does. -/
def filledCount (root gs : GameState) : Nat :=
  (List.range root.board.N).foldl (fun acc r =>
    (List.range root.board.N).foldl (fun acc2 c =>
      if gs.board.get (r, c) ≠ 0 then acc2 + 1 else acc2) acc) 0

/-- Embeds evaluate from sudokuai.py: filled * 0.01 plus the score of the
root state's current player minus the score of the other player, the
indices 'game_state.current_player - 1' and '2 - game_state.current_player'
referring to the root state captured by the closure. -/
def evaluate (root gs : GameState) : ℚ :=
  (filledCount root gs : ℚ) * (1 / 100) +
    ((gs.scores.getD (root.current_player - 1) 0 : ℚ) -
      (gs.scores.getD (2 - root.current_player) 0 : ℚ))

/-- The value domain of the search: rationals extended with the bottom and
top elements modelling the Python floats -inf and +inf. -/
abbrev XQ := WithBot (WithTop ℚ)

/-- Injection of a finite rational value into the search value domain. -/
def XQ.fin (q : ℚ) : XQ := ((q : WithTop ℚ) : XQ)

/-- Embeds next_moves.sort(key=move_score, reverse=True), the descending
stable sort used on the maximizing side. -/
def sortDesc (root : GameState) (ms : List Mv) : List Mv :=
  ms.mergeSort (fun x y =>
    decide (move_score root.board y.1 y.2.1 y.2.2 ≤ move_score root.board x.1 x.2.1 x.2.2))

/-- Embeds next_moves.sort(key=move_score), the ascending stable sort used
on the minimizing side. -/
def sortAsc (root : GameState) (ms : List Mv) : List Mv :=
  ms.mergeSort (fun x y =>
    decide (move_score root.board x.1 x.2.1 x.2.2 ≤ move_score root.board y.1 y.2.1 y.2.2))

/-- The maximizing loop of alpha_beta over an already-sorted move list:
the running value starts at -inf, a strictly better child score replaces
value and best move, alpha is raised to max(alpha, value), and the loop
breaks as soon as alpha is at least beta.  The child call receives the
current alpha, as in the source. -/
def abMax (rec : Mv → XQ → XQ × Option Mv) (beta : XQ) :
    List Mv → XQ → Option Mv → XQ → XQ × Option Mv
  | [], v, best, _a => (v, best)
  | mv :: rest, v, best, a =>
    let s := (rec mv a).1
    let v' := if v < s then s else v
    let best' := if v < s then some mv else best
    let a' := max a v'
    if beta ≤ a' then (v', best') else abMax rec beta rest v' best' a'

/-- The minimizing loop of alpha_beta, dual to abMax: value starts at
+inf, beta is lowered to min(beta, value), break when alpha is at least
beta. -/
def abMin (rec : Mv → XQ → XQ × Option Mv) (alpha : XQ) :
    List Mv → XQ → Option Mv → XQ → XQ × Option Mv
  | [], v, best, _b => (v, best)
  | mv :: rest, v, best, b =>
    let s := (rec mv b).1
    let v' := if s < v then s else v
    let best' := if s < v then some mv else best
    let b' := min b v'
    if b' ≤ alpha then (v', best') else abMin rec alpha rest v' best' b'

/-- Embeds alpha_beta from sudokuai.py without its time check (the timed
variant alpha_betaT adds it): at depth 0 or with no legal candidate the
node returns (evaluate(gs), None); otherwise the candidates are sorted by
move_score (descending when maximizing, ascending when minimizing) and
folded by the corresponding pruning loop. -/
def alpha_beta (root : GameState) : Nat → GameState → XQ → XQ → Bool → XQ × Option Mv
  | 0, gs, _a, _b, _mx => (XQ.fin (evaluate root gs), none)
  | d + 1, gs, a, b, mx =>
    let ms := nextMoves root gs
    if ms.isEmpty then (XQ.fin (evaluate root gs), none)
    else if mx then
      abMax (fun mv a' => alpha_beta root d (apply_move_to_state gs mv) a' b false) b
        (sortDesc root ms) ⊥ none a
    else
      abMin (fun mv b' => alpha_beta root d (apply_move_to_state gs mv) a b' true) a
        (sortAsc root ms) ⊤ none b

/-- The maximizing fold of the brute-force minimax: identical to abMax
except that no alpha is maintained and no cutoff ever happens. -/
def mmFoldMax (rec : Mv → XQ × Option Mv) : List Mv → XQ → Option Mv → XQ × Option Mv
  | [], v, best => (v, best)
  | mv :: rest, v, best =>
    let s := (rec mv).1
    let v' := if v < s then s else v
    let best' := if v < s then some mv else best
    mmFoldMax rec rest v' best'

/-- The minimizing fold of the brute-force minimax, dual to mmFoldMax. -/
def mmFoldMin (rec : Mv → XQ × Option Mv) : List Mv → XQ → Option Mv → XQ × Option Mv
  | [], v, best => (v, best)
  | mv :: rest, v, best =>
    let s := (rec mv).1
    let v' := if s < v then s else v
    let best' := if s < v then some mv else best
    mmFoldMin rec rest v' best'

/-- Modelled from the spec (section 8): brute-force depth-d minimax with
no alpha-beta cutoff, over the same move enumeration and exploration
order as alpha_beta, applying evaluate at depth-0 and no-move nodes. -/
def bruteForceMinimax (root : GameState) : Nat → GameState → Bool → XQ × Option Mv
  | 0, gs, _mx => (XQ.fin (evaluate root gs), none)
  | d + 1, gs, mx =>
    let ms := nextMoves root gs
    if ms.isEmpty then (XQ.fin (evaluate root gs), none)
    else if mx then
      mmFoldMax (fun mv => bruteForceMinimax root d (apply_move_to_state gs mv) false)
        (sortDesc root ms) ⊥ none
    else
      mmFoldMin (fun mv => bruteForceMinimax root d (apply_move_to_state gs mv) true)
        (sortAsc root ms) ⊤ none

/-- The maximizing loop of the timed search: as abMax, but each child call
may raise the cancellation (modelled by Except.error), which the loop
propagates unchanged to its caller, and the current tick count is threaded
through. -/
def abMaxT (rec : Mv → XQ → Nat → Except Unit ((XQ × Option Mv) × Nat)) (beta : XQ) :
    List Mv → XQ → Option Mv → XQ → Nat → Except Unit ((XQ × Option Mv) × Nat)
  | [], v, best, _a, t => .ok ((v, best), t)
  | mv :: rest, v, best, a, t =>
    match rec mv a t with
    | .error e => .error e
    | .ok (r, t') =>
      let s := r.1
      let v' := if v < s then s else v
      let best' := if v < s then some mv else best
      let a' := max a v'
      if beta ≤ a' then .ok ((v', best'), t') else abMaxT rec beta rest v' best' a' t'

/-- The minimizing loop of the timed search, dual to abMaxT. -/
def abMinT (rec : Mv → XQ → Nat → Except Unit ((XQ × Option Mv) × Nat)) (alpha : XQ) :
    List Mv → XQ → Option Mv → XQ → Nat → Except Unit ((XQ × Option Mv) × Nat)
  | [], v, best, _b, t => .ok ((v, best), t)
  | mv :: rest, v, best, b, t =>
    match rec mv b t with
    | .error e => .error e
    | .ok (r, t') =>
      let s := r.1
      let v' := if s < v then s else v
      let best' := if s < v then some mv else best
      let b' := min b v'
      if b' ≤ alpha then .ok ((v', best'), t') else abMinT rec alpha rest v' best' b' t'

/-- Embeds alpha_beta from sudokuai.py including its entry time check:
each entry first reads the clock (consuming one tick); if the deadline has
passed it raises TimeoutError, modelled as Except.error, which every
enclosing frame propagates (the source installs no handler inside
alpha_beta).  The clock parameter maps each tick index to whether
time.time() - start_time exceeded the limit at that read. -/
def alpha_betaT (clock : Nat → Bool) (root : GameState) :
    Nat → GameState → XQ → XQ → Bool → Nat → Except Unit ((XQ × Option Mv) × Nat)
  | depth, gs, a, b, mx, t =>
    if clock t then .error () else
    match depth with
    | 0 => .ok ((XQ.fin (evaluate root gs), none), t + 1)
    | d + 1 =>
      let ms := nextMoves root gs
      if ms.isEmpty then .ok ((XQ.fin (evaluate root gs), none), t + 1)
      else if mx then
        abMaxT (fun mv a' t' => alpha_betaT clock root d (apply_move_to_state gs mv) a' b false t')
          b (sortDesc root ms) ⊥ none a (t + 1)
      else
        abMinT (fun mv b' t' => alpha_betaT clock root d (apply_move_to_state gs mv) a b' true t')
          a (sortAsc root ms) ⊤ none b (t + 1)

/-- The fallback move published before the search: random.choice over the
non-empty legal_moves list, modelled by an arbitrary index k reduced
modulo the list length. -/
def fallbackMove (root : GameState) (k : Nat) : Mv :=
  (legalMovesList root).getD (k % (legalMovesList root).length) (0, 0, 0)

/-- Embeds the iterative-deepening while-loop of compute_best_move: at
each iteration the driver reads the clock once (breaking when the
deadline passed), runs the timed search at the current depth from the
unmodified root with the full window, adopts and publishes the returned
move when it is not None, breaks on TimeoutError, and otherwise deepens.
The fuel argument bounds how many iterations are unrolled; acc collects
the moves passed to propose_move and the Mv component is the standing
best_move. -/
def driverLoopT (clock : Nat → Bool) (root : GameState) :
    Nat → Nat → Nat → Mv → List Mv → List Mv × Mv
  | 0, _d, _t, best, acc => (acc, best)
  | fuel + 1, d, t, best, acc =>
    if clock t then (acc, best)
    else
      match alpha_betaT clock root d root ⊥ ⊤ true (t + 1) with
      | .error _ => (acc, best)
      | .ok ((_, none), t') => driverLoopT clock root fuel (d + 1) t' best acc
      | .ok ((_, some mv), t') => driverLoopT clock root fuel (d + 1) t' mv (acc ++ [mv])

/-- The sequence of distinct moves compute_best_move passes to
propose_move: nothing when the root legal-move list is empty (the
function returns before proposing); otherwise the fallback followed by
each adopted completed-depth move.  The final keep-proposing loop of the
source republishes the standing best move indefinitely and hence adds no
move outside this list. -/
def proposalsT (clock : Nat → Bool) (root : GameState) (k fuel : Nat) : List Mv :=
  if (legalMovesList root).isEmpty then []
  else fallbackMove root k :: (driverLoopT clock root fuel 1 0 (fallbackMove root k) []).1

/-- The standing best move republished forever by the final loop of
compute_best_move, when the root has a legal move. -/
def finalMoveT (clock : Nat → Bool) (root : GameState) (k fuel : Nat) : Option Mv :=
  if (legalMovesList root).isEmpty then none
  else some (driverLoopT clock root fuel 1 0 (fallbackMove root k) []).2

/-- Absence of duplicates among filled cells: no value occurs twice in any
row, column, or region of the board. -/
def noDuplicates (b : SudokuBoard) : Prop :=
  (∀ r, r < b.N → ∀ c1, c1 < b.N → ∀ c2, c2 < b.N → c1 ≠ c2 →
    b.get (r, c1) ≠ 0 → b.get (r, c1) ≠ b.get (r, c2)) ∧
  (∀ c, c < b.N → ∀ r1, r1 < b.N → ∀ r2, r2 < b.N → r1 ≠ r2 →
    b.get (r1, c) ≠ 0 → b.get (r1, c) ≠ b.get (r2, c)) ∧
  (∀ r1, r1 < b.N → ∀ c1, c1 < b.N → ∀ r2, r2 < b.N → ∀ c2, c2 < b.N →
    (r1, c1) ≠ (r2, c2) → r1 / b.m = r2 / b.m → c1 / b.n = c2 / b.n →
    b.get (r1, c1) ≠ 0 → b.get (r1, c1) ≠ b.get (r2, c2))

/-- Executable version of noDuplicates, used to evaluate the invariant on
concrete boards. -/
def noDuplicatesB (b : SudokuBoard) : Bool :=
  ((List.range b.N).all fun r => (List.range b.N).all fun c1 =>
    (List.range b.N).all fun c2 =>
      decide (c1 = c2) || decide (b.get (r, c1) = 0) ||
        decide (b.get (r, c1) ≠ b.get (r, c2))) &&
  ((List.range b.N).all fun c => (List.range b.N).all fun r1 =>
    (List.range b.N).all fun r2 =>
      decide (r1 = r2) || decide (b.get (r1, c) = 0) ||
        decide (b.get (r1, c) ≠ b.get (r2, c))) &&
  ((List.range b.N).all fun r1 => (List.range b.N).all fun c1 =>
    (List.range b.N).all fun r2 => (List.range b.N).all fun c2 =>
      decide ((r1, c1) = (r2, c2)) || decide (r1 / b.m ≠ r2 / b.m) ||
        decide (c1 / b.n ≠ c2 / b.n) || decide (b.get (r1, c1) = 0) ||
        decide (b.get (r1, c1) ≠ b.get (r2, c2)))

/-- Well-formedness of a state: positive region dimensions, a cell list of
the right length, and allowed-squares restrictions within range. -/
def WFState (s : GameState) : Prop :=
  0 < s.board.m ∧ 0 < s.board.n ∧ s.board.cells.length = s.board.N * s.board.N ∧
  (∀ sq ∈ s.allowed_player1.getD [], sq.1 < s.board.N ∧ sq.2 < s.board.N) ∧
  (∀ sq ∈ s.allowed_player2.getD [], sq.1 < s.board.N ∧ sq.2 < s.board.N)

/-- A move sequence each of whose moves is approved by the legality
checker evaluated at the successive state it is applied to. -/
def approvedSeq (s : GameState) : List Mv → Bool
  | [] => true
  | mv :: rest =>
    is_legal_move s mv.1 mv.2.1 mv.2.2 && approvedSeq (apply_move_to_state s mv) rest

/-- Sample state: an empty 1 by 1 board with trivial 1 by 1 regions, no
taboo moves, zero scores, player 1 to move, no square restriction. -/
def root1 : GameState := ⟨⟨1, 1, [0]⟩, [], [], [0, 0], 1, none, none⟩

/-- Sample state: an empty 4 by 4 board with 2 by 2 regions, no taboo
moves, zero scores, player 1 to move, no square restriction. -/
def root4 : GameState := ⟨⟨2, 2, List.replicate 16 0⟩, [], [], [0, 0], 1, none, none⟩

/-- The state one ply after root4: value 1 has been placed at (0, 0). -/
def child4 : GameState := apply_move_to_state root4 (0, 0, 1)

/-- Sample state: a 4 by 4 board with 2 by 2 regions whose single filled
cell is a 1 at (0, 0). -/
def root4one : GameState :=
  ⟨⟨2, 2, (List.replicate 16 0).set 0 1⟩, [], [], [0, 0], 1, none, none⟩

/-- The safety properties claim C1 requires of every proposed move at the
root state: empty target cell, value within 1..N, not a taboo pair, and
the value absent from the filled cells of the move's row, column and
region. -/
def RootLegalProps (root : GameState) (mv : Mv) : Prop :=
  root.board.get (mv.1, mv.2.1) = 0 ∧
  1 ≤ mv.2.2 ∧ mv.2.2 ≤ root.board.N ∧
  ((mv.1, mv.2.1), mv.2.2) ∉ root.taboo_moves ∧
  (∀ c, c < root.board.N → root.board.get (mv.1, c) ≠ mv.2.2) ∧
  (∀ r, r < root.board.N → root.board.get (r, mv.2.1) ≠ mv.2.2) ∧
  (∀ r, r < root.board.N → ∀ c, c < root.board.N →
    r / root.board.m = mv.1 / root.board.m → c / root.board.n = mv.2.1 / root.board.n →
    root.board.get (r, c) ≠ mv.2.2)

/-- A sample clock whose deadline passes at the second read: the first
read (tick 0) is within budget, every later read is past it. -/
def clock1 : Nat → Bool := fun t => decide (1 ≤ t)

/-! ## Basic facts about the board representation -/

theorem SudokuBoard.N_put (b : SudokuBoard) (sq : Nat × Nat) (v : Nat) :
    (b.put sq v).N = b.N := rfl

theorem rowMajor_inj {N r c i j : Nat} (hc : c < N) (hj : j < N) :
    r * N + c = i * N + j ↔ r = i ∧ c = j := by
  constructor
  · intro h
    rcases Nat.lt_trichotomy r i with hlt | heq | hgt
    · have h1 : (r + 1) * N ≤ i * N := Nat.mul_le_mul_right N hlt
      have h2 : (r + 1) * N = r * N + N := Nat.succ_mul r N
      omega
    · exact ⟨heq, by subst heq; omega⟩
    · have h1 : (i + 1) * N ≤ r * N := Nat.mul_le_mul_right N hgt
      have h2 : (i + 1) * N = i * N + N := Nat.succ_mul i N
      omega
  · rintro ⟨rfl, rfl⟩
    rfl

theorem SudokuBoard.get_put (b : SudokuBoard) (hlen : b.cells.length = b.N * b.N)
    {i j r c : Nat} (hi : i < b.N) (hj : j < b.N) (hr : r < b.N) (hc : c < b.N) (v : Nat) :
    (b.put (i, j) v).get (r, c) = if r = i ∧ c = j then v else b.get (r, c) := by
  have hb : (b.put (i, j) v).get (r, c) = (b.cells.set (i * b.N + j) v).getD (r * b.N + c) 0 := by
    simp [SudokuBoard.put, SudokuBoard.get, SudokuBoard.N]
  by_cases h : r = i ∧ c = j
  · obtain ⟨rfl, rfl⟩ := h
    have hidx : r * b.N + c < b.cells.length := by
      have h1 : (r + 1) * b.N ≤ b.N * b.N := Nat.mul_le_mul_right _ (by omega)
      have h2 : (r + 1) * b.N = r * b.N + b.N := Nat.succ_mul r b.N
      omega
    rw [hb, if_pos ⟨rfl, rfl⟩, List.getD_eq_getElem?_getD,
      List.getElem?_set_self (by simpa using hidx)]
    rfl
  · have hne : i * b.N + j ≠ r * b.N + c := by
      intro heq
      exact h ((rowMajor_inj hc hj).mp heq.symm)
    rw [hb, if_neg h, List.getD_eq_getElem?_getD, List.getElem?_set_ne hne,
      SudokuBoard.get, List.getD_eq_getElem?_getD]

/-! ## Characterizations of the conflict scans -/

theorem row_has_value_iff (b : SudokuBoard) (i v : Nat) :
    row_has_value b i v = true ↔ ∃ c, c < b.N ∧ b.get (i, c) ≠ 0 ∧ b.get (i, c) = v := by
  simp [row_has_value, List.any_eq_true, List.mem_range]

theorem col_has_value_iff (b : SudokuBoard) (j v : Nat) :
    col_has_value b j v = true ↔ ∃ r, r < b.N ∧ b.get (r, j) ≠ 0 ∧ b.get (r, j) = v := by
  simp [col_has_value, List.any_eq_true, List.mem_range]

/-- With a positive divisor, lying in the semi-open block interval starting
at (i / m) * m is the same as having the same quotient as i. -/
theorem mem_block_interval {m i r : Nat} (hm : 0 < m) :
    (i / m) * m ≤ r ∧ r < (i / m) * m + m ↔ r / m = i / m := by
  have hdm := Nat.div_add_mod r m
  have hmod := Nat.mod_lt r hm
  constructor
  · rintro ⟨h1, h2⟩
    have hu : m * (r / m) < m * (i / m + 1) := by
      have : m * (i / m + 1) = (i / m) * m + m := by ring
      omega
    have hl : m * (i / m) < m * (r / m + 1) := by
      have e1 : m * (r / m + 1) = m * (r / m) + m := by ring
      have e2 : m * (i / m) = (i / m) * m := by ring
      omega
    have hu2 := Nat.lt_of_mul_lt_mul_left hu
    have hl2 := Nat.lt_of_mul_lt_mul_left hl
    omega
  · intro h
    rw [← h]
    refine ⟨Nat.div_mul_le_self r m, ?_⟩
    have e : r / m * m = m * (r / m) := Nat.mul_comm _ _
    omega

theorem row_has_value_eq_false_iff (b : SudokuBoard) {i v : Nat} (hv : 1 ≤ v) :
    row_has_value b i v = false ↔ ∀ c, c < b.N → b.get (i, c) ≠ v := by
  rw [← Bool.not_eq_true, row_has_value_iff]
  constructor
  · intro h c hc hv2
    exact h ⟨c, hc, by omega, hv2⟩
  · rintro h ⟨c, hc, _, hv2⟩
    exact h c hc hv2

theorem col_has_value_eq_false_iff (b : SudokuBoard) {j v : Nat} (hv : 1 ≤ v) :
    col_has_value b j v = false ↔ ∀ r, r < b.N → b.get (r, j) ≠ v := by
  rw [← Bool.not_eq_true, col_has_value_iff]
  constructor
  · intro h r hr hv2
    exact h ⟨r, hr, by omega, hv2⟩
  · rintro h ⟨r, hr, _, hv2⟩
    exact h r hr hv2

theorem block_has_value_iff (b : SudokuBoard) (hm : 0 < b.m) (hn : 0 < b.n)
    {i j : Nat} (hi : i < b.N) (hj : j < b.N) (v : Nat) :
    block_has_value b i j v = true ↔
      ∃ r c, r < b.N ∧ c < b.N ∧ r / b.m = i / b.m ∧ c / b.n = j / b.n ∧
        b.get (r, c) ≠ 0 ∧ b.get (r, c) = v := by
  have hrow : ∀ r, r / b.m = i / b.m → r < b.N := by
    intro r hrq
    have h1 : i / b.m < b.n := (Nat.div_lt_iff_lt_mul hm).mpr (by
      have e1 : b.N = b.m * b.n := rfl
      have e2 : b.n * b.m = b.m * b.n := Nat.mul_comm _ _
      omega)
    have h2 := (mem_block_interval hm).mpr hrq
    have h3 : (i / b.m) * b.m + b.m = (i / b.m + 1) * b.m := by ring
    have h4 : (i / b.m + 1) * b.m ≤ b.n * b.m := Nat.mul_le_mul_right _ h1
    have h5 : b.n * b.m = b.N := by rw [SudokuBoard.N]; ring
    omega
  have hcol : ∀ c, c / b.n = j / b.n → c < b.N := by
    intro c hcq
    have h1 : j / b.n < b.m := (Nat.div_lt_iff_lt_mul hn).mpr (by
      have e1 : b.N = b.m * b.n := rfl
      omega)
    have h2 := (mem_block_interval hn).mpr hcq
    have h3 : (j / b.n) * b.n + b.n = (j / b.n + 1) * b.n := by ring
    have h4 : (j / b.n + 1) * b.n ≤ b.m * b.n := Nat.mul_le_mul_right _ h1
    have h5 : b.m * b.n = b.N := rfl
    omega
  simp only [block_has_value, List.any_eq_true, List.mem_range'_1, Bool.and_eq_true,
    decide_eq_true_eq]
  constructor
  · rintro ⟨r, ⟨hr1, hr2⟩, c, ⟨hc1, hc2⟩, h0, hv⟩
    have hrq := (mem_block_interval hm).mp ⟨hr1, hr2⟩
    have hcq := (mem_block_interval hn).mp ⟨hc1, hc2⟩
    exact ⟨r, c, hrow r hrq, hcol c hcq, hrq, hcq, h0, hv⟩
  · rintro ⟨r, c, _, _, hrq, hcq, h0, hv⟩
    have h1 := (mem_block_interval hm).mpr hrq
    have h2 := (mem_block_interval hn).mpr hcq
    exact ⟨r, ⟨h1.1, h1.2⟩, c, ⟨h2.1, h2.2⟩, h0, hv⟩

theorem block_has_value_eq_false_iff (b : SudokuBoard) (hm : 0 < b.m) (hn : 0 < b.n)
    {i j v : Nat} (hi : i < b.N) (hj : j < b.N) (hv : 1 ≤ v) :
    block_has_value b i j v = false ↔
      ∀ r, r < b.N → ∀ c, c < b.N → r / b.m = i / b.m → c / b.n = j / b.n →
        b.get (r, c) ≠ v := by
  rw [← Bool.not_eq_true, block_has_value_iff b hm hn hi hj]
  constructor
  · intro h r hr c hc hrq hcq hv2
    exact h ⟨r, c, hr, hc, hrq, hcq, by omega, hv2⟩
  · rintro h ⟨r, c, hr, hc, hrq, hcq, _, hv2⟩
    exact h r hr c hc hrq hcq hv2

theorem taboo_scan_eq_false_iff (s : GameState) (i j v : Nat) :
    (s.taboo_moves.any (fun t => decide (t.1 = (i, j)) && decide (t.2 = v))) = false ↔
      ((i, j), v) ∉ s.taboo_moves := by
  rw [← Bool.not_eq_true, List.any_eq_true]
  constructor
  · intro h hmem
    exact h ⟨((i, j), v), hmem, by simp⟩
  · rintro h ⟨t, hmem, ht⟩
    simp only [Bool.and_eq_true, decide_eq_true_eq] at ht
    have : t = ((i, j), v) := Prod.ext ht.1 ht.2
    exact h (this ▸ hmem)

/-- The master legality characterization: for in-range coordinates on a
board with positive region dimensions, is_legal_move holds exactly when
the square is allowed, the cell empty, the value in range and non-taboo,
and the value absent from the filled cells of the square's row, column and
region. -/
theorem is_legal_move_iff (s : GameState) (hm : 0 < s.board.m) (hn : 0 < s.board.n)
    {i j : Nat} (v : Nat) (hi : i < s.board.N) (hj : j < s.board.N) :
    is_legal_move s i j v = true ↔
      ((i, j) ∈ playerSquaresD s s ∧ s.board.get (i, j) = 0 ∧
       1 ≤ v ∧ v ≤ s.board.N ∧ ((i, j), v) ∉ s.taboo_moves ∧
       (∀ c, c < s.board.N → s.board.get (i, c) ≠ v) ∧
       (∀ r, r < s.board.N → s.board.get (r, j) ≠ v) ∧
       (∀ r, r < s.board.N → ∀ c, c < s.board.N → r / s.board.m = i / s.board.m →
         c / s.board.n = j / s.board.n → s.board.get (r, c) ≠ v)) := by
  simp only [is_legal_move, Bool.and_eq_true, decide_eq_true_eq, Bool.not_eq_true',
    and_assoc]
  constructor
  · rintro ⟨h1, h2, h3, h4, h5, h6, h7, h8⟩
    exact ⟨h1, h2, h3, h4, (taboo_scan_eq_false_iff s i j v).mp h5,
      fun c hc => (row_has_value_eq_false_iff s.board h3).mp h6 c hc,
      fun r hr => (col_has_value_eq_false_iff s.board h3).mp h7 r hr,
      (block_has_value_eq_false_iff s.board hm hn hi hj h3).mp h8⟩
  · rintro ⟨h1, h2, h3, h4, h5, h6, h7, h8⟩
    exact ⟨h1, h2, h3, h4, (taboo_scan_eq_false_iff s i j v).mpr h5,
      (row_has_value_eq_false_iff s.board h3).mpr fun c hc => h6 c hc,
      (col_has_value_eq_false_iff s.board h3).mpr fun r hr => h7 r hr,
      (block_has_value_eq_false_iff s.board hm hn hi hj h3).mpr h8⟩

theorem mem_fullGrid {N : Nat} {sq : Nat × Nat} :
    sq ∈ fullGrid N ↔ sq.1 < N ∧ sq.2 < N := by
  obtain ⟨i, j⟩ := sq
  simp [fullGrid, List.mem_flatMap, List.mem_map, List.mem_range]

theorem mem_playerSquaresD_lt (s : GameState) (hwf : WFState s) {sq : Nat × Nat}
    (h : sq ∈ playerSquaresD s s) : sq.1 < s.board.N ∧ sq.2 < s.board.N := by
  unfold playerSquaresD at h
  cases hps : s.player_squares with
  | none =>
    rw [hps] at h
    exact mem_fullGrid.mp h
  | some l =>
    rw [hps] at h
    unfold GameState.player_squares at hps
    by_cases hcp : s.current_player = 1
    · rw [if_pos hcp] at hps
      have := hwf.2.2.2.1 sq
      rw [hps] at this
      exact this h
    · rw [if_neg hcp] at hps
      have := hwf.2.2.2.2 sq
      rw [hps] at this
      exact this h

theorem legal_coords_lt (s : GameState) (hwf : WFState s) {i j v : Nat}
    (h : is_legal_move s i j v = true) : i < s.board.N ∧ j < s.board.N := by
  have hmem : (i, j) ∈ playerSquaresD s s := by
    simp only [is_legal_move, Bool.and_eq_true, decide_eq_true_eq, and_assoc] at h
    exact h.1
  exact mem_playerSquaresD_lt s hwf hmem

/-- C3: evaluated against the root game state, is_legal_move(i, j, v)
returns true if and only if (a) (i, j) is in the allowed-squares set (the
whole board when the restriction is absent), (b) the cell is currently
empty, (c) 1 <= v <= N, (d) ((i, j), v) is not in the taboo set, and
(e) v occurs in none of the filled cells of row i, column j, or the
region containing (i, j).  The embedding is a plain Lean function, hence
total and side-effect free, as the claim requires. -/
theorem is_legal_move_root_characterization (root : GameState)
    (hm : 0 < root.board.m) (hn : 0 < root.board.n)
    (i j v : Nat) (hi : i < root.board.N) (hj : j < root.board.N) :
    is_legal_move root i j v = true ↔
      ((i, j) ∈ playerSquaresD root root ∧ root.board.get (i, j) = 0 ∧
       1 ≤ v ∧ v ≤ root.board.N ∧ ((i, j), v) ∉ root.taboo_moves ∧
       (∀ c, c < root.board.N → root.board.get (i, c) ≠ v) ∧
       (∀ r, r < root.board.N → root.board.get (r, j) ≠ v) ∧
       (∀ r, r < root.board.N → ∀ c, c < root.board.N →
         r / root.board.m = i / root.board.m → c / root.board.n = j / root.board.n →
         root.board.get (r, c) ≠ v)) :=
  is_legal_move_iff root hm hn v hi hj

/-- Witness for C3 at a concrete input: on the empty 1 by 1 board the
characterization applies and certifies the move (0, 0, 1) legal. -/
theorem is_legal_move_root_characterization_witness :
    is_legal_move root1 0 0 1 = true :=
  (is_legal_move_root_characterization root1 (by decide) (by decide) 0 0 1
    (by decide) (by decide)).mpr (by decide)

theorem noDuplicatesB_iff (b : SudokuBoard) :
    noDuplicatesB b = true ↔ noDuplicates b := by
  unfold noDuplicatesB noDuplicates
  simp only [Bool.and_eq_true, List.all_eq_true, List.mem_range, Bool.or_eq_true,
    decide_eq_true_eq, and_assoc, or_assoc]
  constructor
  · rintro ⟨h1, h2, h3⟩
    refine ⟨?_, ?_, ?_⟩
    · intro r hr c1 hc1 c2 hc2 hne h0
      rcases h1 r hr c1 hc1 c2 hc2 with h | h | h
      · exact absurd h hne
      · exact absurd h h0
      · exact h
    · intro c hc r1 hr1 r2 hr2 hne h0
      rcases h2 c hc r1 hr1 r2 hr2 with h | h | h
      · exact absurd h hne
      · exact absurd h h0
      · exact h
    · intro r1 hr1 c1 hc1 r2 hr2 c2 hc2 hne hq1 hq2 h0
      rcases h3 r1 hr1 c1 hc1 r2 hr2 c2 hc2 with h | h | h | h | h
      · exact absurd h hne
      · exact absurd hq1 h
      · exact absurd hq2 h
      · exact absurd h h0
      · exact h
  · rintro ⟨h1, h2, h3⟩
    refine ⟨?_, ?_, ?_⟩
    · intro r hr c1 hc1 c2 hc2
      by_cases hne : c1 = c2
      · exact Or.inl hne
      · by_cases h0 : b.get (r, c1) = 0
        · exact Or.inr (Or.inl h0)
        · exact Or.inr (Or.inr (h1 r hr c1 hc1 c2 hc2 hne h0))
    · intro c hc r1 hr1 r2 hr2
      by_cases hne : r1 = r2
      · exact Or.inl hne
      · by_cases h0 : b.get (r1, c) = 0
        · exact Or.inr (Or.inl h0)
        · exact Or.inr (Or.inr (h2 c hc r1 hr1 r2 hr2 hne h0))
    · intro r1 hr1 c1 hc1 r2 hr2 c2 hc2
      by_cases hne : (r1, c1) = (r2, c2)
      · exact Or.inl hne
      · by_cases hq1 : r1 / b.m = r2 / b.m
        · by_cases hq2 : c1 / b.n = c2 / b.n
          · by_cases h0 : b.get (r1, c1) = 0
            · exact Or.inr (Or.inr (Or.inr (Or.inl h0)))
            · exact Or.inr (Or.inr (Or.inr (Or.inr
                (h3 r1 hr1 c1 hc1 r2 hr2 c2 hc2 hne hq1 hq2 h0))))
          · exact Or.inr (Or.inr (Or.inl hq2))
        · exact Or.inr (Or.inl hq1)

theorem WFState_apply (gs : GameState) (mv : Mv) (hwf : WFState gs) :
    WFState (apply_move_to_state gs mv) := by
  obtain ⟨h1, h2, h3, h4, h5⟩ := hwf
  refine ⟨h1, h2, ?_, h4, h5⟩
  simpa [apply_move_to_state, SudokuBoard.put, SudokuBoard.N] using h3

theorem noDuplicates_put (s : GameState) (hwf : WFState s) (hnd : noDuplicates s.board)
    {i j v : Nat} (hl : is_legal_move s i j v = true) :
    noDuplicates (s.board.put (i, j) v) := by
  have hm := hwf.1
  have hn := hwf.2.1
  have hlen := hwf.2.2.1
  obtain ⟨hi, hj⟩ := legal_coords_lt s hwf hl
  obtain ⟨hmem, hempty, hv1, hvN, htaboo, hrow, hcol, hblock⟩ :=
    (is_legal_move_iff s hm hn v hi hj).mp hl
  have hgp : ∀ {r c : Nat}, r < s.board.N → c < s.board.N →
      (s.board.put (i, j) v).get (r, c) =
        if r = i ∧ c = j then v else s.board.get (r, c) :=
    fun hr hc => s.board.get_put hlen hi hj hr hc v
  have hNp : (s.board.put (i, j) v).N = s.board.N := rfl
  have hmp : (s.board.put (i, j) v).m = s.board.m := rfl
  have hnp : (s.board.put (i, j) v).n = s.board.n := rfl
  refine ⟨?_, ?_, ?_⟩
  · intro r hr c1 hc1 c2 hc2 hne h0
    rw [hNp] at hr hc1 hc2
    rw [hgp hr hc1] at h0
    rw [hgp hr hc1, hgp hr hc2]
    by_cases e1 : r = i ∧ c1 = j
    · rw [if_pos e1] at h0 ⊢
      have e2 : ¬(r = i ∧ c2 = j) := fun e2 => hne (e1.2.trans e2.2.symm)
      rw [if_neg e2]
      have hgv := hrow c2 hc2
      rw [← e1.1] at hgv
      exact fun hcontra => hgv hcontra.symm
    · rw [if_neg e1] at h0 ⊢
      by_cases e2 : r = i ∧ c2 = j
      · rw [if_pos e2]
        have hgv := hrow c1 hc1
        rw [← e2.1] at hgv
        exact hgv
      · rw [if_neg e2]
        exact hnd.1 r hr c1 hc1 c2 hc2 hne h0
  · intro c hc r1 hr1 r2 hr2 hne h0
    rw [hNp] at hc hr1 hr2
    rw [hgp hr1 hc] at h0
    rw [hgp hr1 hc, hgp hr2 hc]
    by_cases e1 : r1 = i ∧ c = j
    · rw [if_pos e1] at h0 ⊢
      have e2 : ¬(r2 = i ∧ c = j) := fun e2 => hne (e1.1.trans e2.1.symm)
      rw [if_neg e2]
      have hgv := hcol r2 hr2
      rw [← e1.2] at hgv
      exact fun hcontra => hgv hcontra.symm
    · rw [if_neg e1] at h0 ⊢
      by_cases e2 : r2 = i ∧ c = j
      · rw [if_pos e2]
        have hgv := hcol r1 hr1
        rw [← e2.2] at hgv
        exact hgv
      · rw [if_neg e2]
        exact hnd.2.1 c hc r1 hr1 r2 hr2 hne h0
  · intro r1 hr1 c1 hc1 r2 hr2 c2 hc2 hne hq1 hq2 h0
    rw [hNp] at hr1 hc1 hr2 hc2
    rw [hmp] at hq1
    rw [hnp] at hq2
    rw [hgp hr1 hc1] at h0
    rw [hgp hr1 hc1, hgp hr2 hc2]
    by_cases e1 : r1 = i ∧ c1 = j
    · rw [if_pos e1] at h0 ⊢
      have e2 : ¬(r2 = i ∧ c2 = j) := by
        rintro ⟨ha, hb⟩
        exact hne (by rw [e1.1, e1.2, ha, hb])
      rw [if_neg e2]
      have hgv := hblock r2 hr2 c2 hc2 (by rw [← hq1, e1.1]) (by rw [← hq2, e1.2])
      exact fun hcontra => hgv hcontra.symm
    · rw [if_neg e1] at h0 ⊢
      by_cases e2 : r2 = i ∧ c2 = j
      · rw [if_pos e2]
        exact hblock r1 hr1 c1 hc1 (by rw [hq1, e2.1]) (by rw [hq2, e2.2])
      · rw [if_neg e2]
        exact hnd.2.2 r1 hr1 c1 hc1 r2 hr2 c2 hc2 hne hq1 hq2 h0

/-- C2: every state reached by applying a sequence of moves, each approved
by the legality checker evaluated at the state it was applied to, has no
value occurring twice among the filled cells of any row, column, or
region, provided the well-formed root state satisfied that invariant. -/
theorem approved_sequences_preserve_noDuplicates :
    ∀ (mvs : List Mv) (root : GameState), WFState root → noDuplicates root.board →
      approvedSeq root mvs = true → noDuplicates (applyMoves root mvs).board := by
  intro mvs
  induction mvs with
  | nil =>
    intro root _ hnd _
    exact hnd
  | cons mv rest ih =>
    intro root hwf hnd happ
    simp only [approvedSeq, Bool.and_eq_true] at happ
    exact ih (apply_move_to_state root mv) (WFState_apply root mv hwf)
      (noDuplicates_put root hwf hnd happ.1) happ.2

/-- Witness for C2 at a concrete input: applying the approved move
(0, 0, 1) to the empty 1 by 1 root keeps the board duplicate-free. -/
theorem approved_sequences_preserve_noDuplicates_witness :
    noDuplicates (applyMoves root1 [(0, 0, 1)]).board :=
  approved_sequences_preserve_noDuplicates [(0, 0, 1)] root1
    ⟨by decide, by decide, by decide, by decide, by decide⟩
    ((noDuplicatesB_iff root1.board).mp (by decide)) (by decide)

/-- C10: apply_move_to_state changes exactly the target cell, the history,
and the player to move; scores, taboo set and allowed-squares restrictions
are unchanged, and hence the score-differential part of evaluate is the
same constant at every state reached from the root by any move sequence.
The embedding is pure, so the input state itself is never mutated. -/
theorem apply_move_frame :
    (∀ (gs : GameState) (mv : Mv),
      (apply_move_to_state gs mv).board = gs.board.put (mv.1, mv.2.1) mv.2.2 ∧
      (apply_move_to_state gs mv).moves = gs.moves ++ [((mv.1, mv.2.1), mv.2.2)] ∧
      (apply_move_to_state gs mv).current_player = 3 - gs.current_player ∧
      (apply_move_to_state gs mv).scores = gs.scores ∧
      (apply_move_to_state gs mv).taboo_moves = gs.taboo_moves ∧
      (apply_move_to_state gs mv).allowed_player1 = gs.allowed_player1 ∧
      (apply_move_to_state gs mv).allowed_player2 = gs.allowed_player2) ∧
    (∀ (root : GameState) (mvs : List Mv), (applyMoves root mvs).scores = root.scores) ∧
    (∀ (root : GameState) (mvs : List Mv),
      evaluate root (applyMoves root mvs)
        - (filledCount root (applyMoves root mvs) : ℚ) * (1 / 100)
      = evaluate root root - (filledCount root root : ℚ) * (1 / 100)) := by
  have hscores : ∀ (mvs : List Mv) (root : GameState),
      (applyMoves root mvs).scores = root.scores := by
    intro mvs
    induction mvs with
    | nil => intro root; rfl
    | cons mv rest ih => intro root; exact ih (apply_move_to_state root mv)
  refine ⟨fun gs mv => ⟨rfl, rfl, rfl, rfl, rfl, rfl, rfl⟩, fun root mvs => hscores mvs root, ?_⟩
  intro root mvs
  unfold evaluate
  rw [hscores mvs root]
  ring

/-- C7 (failing input): at the state one legal ply after the empty 4 by 4
root, the candidate enumeration of alpha_beta still contains (0, 1, 1)
although value 1 already fills (0, 0) in that node's own row 0 — because
is_legal_move checks conflicts against the root board captured by its
closure — so the enumerated set is not the set of moves legal in the
node's own state. -/
theorem nextMoves_at_child_uses_root_conflicts :
    (0, 1, 1) ∈ nextMoves root4 child4 ∧
    child4.board.get (0, 0) = 1 ∧
    is_legal_move child4 0 1 1 = false := by
  refine ⟨by decide, by decide, by decide⟩

/-! ## Counting lemmas for the heuristic characterizations -/

theorem foldl_count (p : α → Prop) [DecidablePred p] :
    ∀ (l : List α) (a : Nat),
      l.foldl (fun s x => if p x then s + 1 else s) a = a + l.countP (fun x => decide (p x)) := by
  intro l
  induction l with
  | nil => intro a; simp
  | cons x xs ih =>
    intro a
    rw [List.foldl_cons, ih, List.countP_cons]
    by_cases h : p x
    · simp [h]
      omega
    · simp [h]

theorem foldl_add_sum (f : α → Nat) :
    ∀ (l : List α) (a : Nat), l.foldl (fun s x => s + f x) a = a + (l.map f).sum := by
  intro l
  induction l with
  | nil => intro a; simp
  | cons x xs ih =>
    intro a
    rw [List.foldl_cons, ih, List.map_cons, List.sum_cons]
    omega

theorem countP_or_single (p : Nat → Prop) [DecidablePred p] {j : Nat} :
    ∀ (l : List Nat), l.Nodup → j ∈ l → ¬ p j →
      l.countP (fun x => decide (x = j ∨ p x)) = 1 + l.countP (fun x => decide (p x)) := by
  intro l
  induction l with
  | nil =>
    intro _ h
    cases h
  | cons a as ih =>
    intro hnd hmem hpj
    rw [List.countP_cons, List.countP_cons]
    by_cases ha : j = a
    · have hjnotin : j ∉ as := by
        have h0 := (List.nodup_cons.mp hnd).1
        rw [ha]
        exact h0
      have heq2 : as.countP (fun x => decide (x = j ∨ p x)) =
          as.countP (fun x => decide (p x)) := by
        apply List.countP_congr
        intro x hx
        have hxj : x ≠ j := fun h => hjnotin (h ▸ hx)
        simp [hxj]
      have hpa : ¬ p a := ha ▸ hpj
      rw [heq2]
      simp [ha.symm, hpa, hpj]
      omega
    · have hmem2 : j ∈ as := by
        rcases List.mem_cons.mp hmem with h | h
        · exact absurd h ha
        · exact h
      rw [ih (List.nodup_cons.mp hnd).2 hmem2 hpj]
      have hne : ¬ (a = j) := fun h => ha h.symm
      by_cases hpa : p a
      · simp [hne, hpa]
        omega
      · simp [hne, hpa]

theorem sum_map_single_diff (f g : Nat → Nat) {i : Nat} :
    ∀ (l : List Nat), l.Nodup → i ∈ l → (∀ r ∈ l, r ≠ i → f r = g r) →
      f i = 1 + g i → (l.map f).sum = 1 + (l.map g).sum := by
  intro l
  induction l with
  | nil =>
    intro _ h
    cases h
  | cons a as ih =>
    intro hnd hmem hagree hfi
    rw [List.map_cons, List.sum_cons, List.map_cons, List.sum_cons]
    by_cases ha : i = a
    · have hinotin : i ∉ as := by
        have h0 := (List.nodup_cons.mp hnd).1
        rw [ha]
        exact h0
      have heq : as.map f = as.map g := by
        apply List.map_congr_left
        intro x hx
        exact hagree x (List.mem_cons_of_mem _ hx) (fun h => hinotin (h ▸ hx))
      rw [heq, ← ha, hfi]
      omega
    · have hmem2 : i ∈ as := by
        rcases List.mem_cons.mp hmem with h | h
        · exact absurd h ha
        · exact h
      have hne : a ≠ i := fun h => ha h.symm
      rw [hagree a (List.mem_cons_self _ _) hne,
        ih (List.nodup_cons.mp hnd).2 hmem2
          (fun r hr hri => hagree r (List.mem_cons_of_mem _ hr) hri) hfi]
      omega

/-- C9 (amended): move_score is the sum of three passes in which the
move's own cell is counted as filled in the row and region passes but
skipped entirely in the column pass; hence for an empty target cell it
equals 2 plus the numbers of filled cells in the move's row, column, and
region (the region counted row by row), and an otherwise-empty board
yields 2, not 3. -/
theorem move_score_count_characterization (b : SudokuBoard) (i j v : Nat)
    (hm : 0 < b.m) (hn : 0 < b.n) (hj : j < b.N) (hempty : b.get (i, j) = 0) :
    move_score b i j v =
      2 + ((List.range b.N).filter (fun c => decide (b.get (i, c) ≠ 0))).length
        + ((List.range b.N).filter (fun r => decide (b.get (r, j) ≠ 0))).length
        + ((List.range' ((i / b.m) * b.m) b.m).map (fun r =>
            ((List.range' ((j / b.n) * b.n) b.n).filter
              (fun c => decide (b.get (r, c) ≠ 0))).length)).sum := by
  unfold move_score
  have hrow : (List.range b.N).foldl (fun score col =>
      if col = j then score + 1 else if b.get (i, col) ≠ 0 then score + 1 else score) 0
      = 1 + ((List.range b.N).filter (fun c => decide (b.get (i, c) ≠ 0))).length := by
    have hbody : (fun (score col : Nat) =>
        if col = j then score + 1 else if b.get (i, col) ≠ 0 then score + 1 else score)
        = (fun score col => if (col = j ∨ b.get (i, col) ≠ 0) then score + 1 else score) := by
      funext s c
      by_cases h1 : c = j
      · simp [h1]
      · by_cases h2 : b.get (i, c) ≠ 0 <;> simp [h1, h2]
    rw [hbody, foldl_count (fun c => c = j ∨ b.get (i, c) ≠ 0), Nat.zero_add,
      countP_or_single (fun c => b.get (i, c) ≠ 0) (List.range b.N) (List.nodup_range _)
        (List.mem_range.mpr hj) (by simp [hempty]),
      List.countP_eq_length_filter]
  have hcol : (List.range b.N).foldl (fun score row =>
      if row = i then score else if b.get (row, j) ≠ 0 then score + 1 else score) 0
      = ((List.range b.N).filter (fun r => decide (b.get (r, j) ≠ 0))).length := by
    have hbody : (fun (score row : Nat) =>
        if row = i then score else if b.get (row, j) ≠ 0 then score + 1 else score)
        = (fun score row => if (row ≠ i ∧ b.get (row, j) ≠ 0) then score + 1 else score) := by
      funext s r
      by_cases h1 : r = i
      · simp [h1]
      · by_cases h2 : b.get (r, j) ≠ 0 <;> simp [h1, h2]
    rw [hbody, foldl_count (fun r => r ≠ i ∧ b.get (r, j) ≠ 0), Nat.zero_add]
    have hpt : ∀ r ∈ List.range b.N,
        (decide (r ≠ i ∧ b.get (r, j) ≠ 0) = true ↔ decide (b.get (r, j) ≠ 0) = true) := by
      intro r _
      by_cases h1 : r = i
      · simp [h1, hempty]
      · simp [h1]
    rw [List.countP_congr hpt, List.countP_eq_length_filter]
  have hblock : (List.range' ((i / b.m) * b.m) b.m).foldl (fun score r =>
      (List.range' ((j / b.n) * b.n) b.n).foldl (fun sc c =>
        if r = i ∧ c = j then sc + 1
        else if b.get (r, c) ≠ 0 then sc + 1 else sc) score) 0
      = 1 + ((List.range' ((i / b.m) * b.m) b.m).map (fun r =>
          ((List.range' ((j / b.n) * b.n) b.n).filter
            (fun c => decide (b.get (r, c) ≠ 0))).length)).sum := by
    have houter : (fun (score r : Nat) => (List.range' ((j / b.n) * b.n) b.n).foldl
        (fun sc c => if r = i ∧ c = j then sc + 1
          else if b.get (r, c) ≠ 0 then sc + 1 else sc) score)
        = (fun score r => score + (List.range' ((j / b.n) * b.n) b.n).countP
            (fun c => decide ((r = i ∧ c = j) ∨ b.get (r, c) ≠ 0))) := by
      funext score r
      have hbodyinner : (fun (sc c : Nat) => if r = i ∧ c = j then sc + 1
          else if b.get (r, c) ≠ 0 then sc + 1 else sc)
          = (fun sc c => if ((r = i ∧ c = j) ∨ b.get (r, c) ≠ 0) then sc + 1 else sc) := by
        funext sc c
        by_cases h1 : r = i ∧ c = j
        · simp [h1]
        · by_cases h2 : b.get (r, c) ≠ 0 <;> simp [h1, h2]
      rw [hbodyinner, foldl_count (fun c => (r = i ∧ c = j) ∨ b.get (r, c) ≠ 0)]
    rw [houter, foldl_add_sum, Nat.zero_add]
    have hmemi : i ∈ List.range' ((i / b.m) * b.m) b.m := by
      rw [List.mem_range'_1]
      exact (mem_block_interval hm).mpr rfl
    have hmemj : j ∈ List.range' ((j / b.n) * b.n) b.n := by
      rw [List.mem_range'_1]
      exact (mem_block_interval hn).mpr rfl
    apply sum_map_single_diff _ _ _ (List.nodup_range' _ _) hmemi
    · intro r _ hri
      have hpt : ∀ c ∈ List.range' ((j / b.n) * b.n) b.n,
          (decide ((r = i ∧ c = j) ∨ b.get (r, c) ≠ 0) = true ↔
            decide (b.get (r, c) ≠ 0) = true) := by
        intro c _
        simp [hri]
      rw [List.countP_congr hpt, List.countP_eq_length_filter]
    · have hpt : ∀ c ∈ List.range' ((j / b.n) * b.n) b.n,
          (decide ((i = i ∧ c = j) ∨ b.get (i, c) ≠ 0) = true ↔
            decide (c = j ∨ b.get (i, c) ≠ 0) = true) := by
        intro c _
        simp
      rw [List.countP_congr hpt,
        countP_or_single (fun c => b.get (i, c) ≠ 0) _ (List.nodup_range' _ _) hmemj
          (by simp [hempty]),
        List.countP_eq_length_filter]
  rw [hrow, hcol, hblock]
  omega

/-- Counterexample to C9 as stated: on the empty 4 by 4 board the move
(0, 0) scores 2, not the claimed 3, because the column pass skips the
move's own cell. -/
theorem move_score_single_count_counterexample : move_score root4.board 0 0 1 ≠ 3 := by
  decide

/-- Witness for the amended C9 at a concrete input: the characterization
applies to the empty 4 by 4 board, where all three filled counts are 0. -/
theorem move_score_count_characterization_witness :
    move_score root4.board 0 0 1 =
      2 + ((List.range root4.board.N).filter
            (fun c => decide (root4.board.get (0, c) ≠ 0))).length
        + ((List.range root4.board.N).filter
            (fun r => decide (root4.board.get (r, 0) ≠ 0))).length
        + ((List.range' ((0 / root4.board.m) * root4.board.m) root4.board.m).map (fun r =>
            ((List.range' ((0 / root4.board.n) * root4.board.n) root4.board.n).filter
              (fun c => decide (root4.board.get (r, c) ≠ 0))).length)).sum :=
  move_score_count_characterization root4.board 0 0 1 (by decide) (by decide) (by decide)
    (by decide)

theorem filledCount_eq (root gs : GameState) :
    filledCount root gs = ((List.range root.board.N).map (fun r =>
      ((List.range root.board.N).filter
        (fun c => decide (gs.board.get (r, c) ≠ 0))).length)).sum := by
  unfold filledCount
  have houter : (fun (acc r : Nat) => (List.range root.board.N).foldl
      (fun acc2 c => if gs.board.get (r, c) ≠ 0 then acc2 + 1 else acc2) acc)
      = (fun acc r => acc + ((List.range root.board.N).filter
          (fun c => decide (gs.board.get (r, c) ≠ 0))).length) := by
    funext acc r
    rw [foldl_count (fun c => gs.board.get (r, c) ≠ 0), List.countP_eq_length_filter]
  rw [houter, foldl_add_sum, Nat.zero_add]

/-- C8 (amended): evaluate returns the count of filled cells (not the
fraction of filled cells) multiplied by 0.01, plus the score differential
score of the root state's current player minus score of the opponent,
where the player indices are taken from the root state captured by the
closure, not from the evaluated node. -/
theorem evaluate_count_characterization (root gs : GameState)
    (hcp : root.current_player = 1 ∨ root.current_player = 2) :
    evaluate root gs =
      (((List.range root.board.N).map (fun r =>
        ((List.range root.board.N).filter
          (fun c => decide (gs.board.get (r, c) ≠ 0))).length)).sum : ℚ) * (1 / 100) +
      (if root.current_player = 1
        then (gs.scores.getD 0 0 : ℚ) - (gs.scores.getD 1 0 : ℚ)
        else (gs.scores.getD 1 0 : ℚ) - (gs.scores.getD 0 0 : ℚ)) := by
  unfold evaluate
  rw [filledCount_eq]
  rcases hcp with h | h
  · rw [h]
    norm_num
  · rw [h]
    norm_num

/-- Counterexample to C8 as stated: on a 4 by 4 board with exactly one
filled cell and zero scores, evaluate returns 1 * 0.01 = 1/100, not the
claimed filled-fraction value (1/16) * 0.01 = 1/1600. -/
theorem evaluate_fraction_counterexample :
    evaluate root4one root4one ≠ ((1 : ℚ) / 16) * (1 / 100) + ((0 : ℚ) - 0) := by
  have h1 : filledCount root4one root4one = 1 := by decide
  have h2 : root4one.scores.getD (root4one.current_player - 1) 0 = 0 := by decide
  have h3 : root4one.scores.getD (2 - root4one.current_player) 0 = 0 := by decide
  unfold evaluate
  rw [h1, h2, h3]
  norm_num

/-- Witness for the amended C8 at a concrete input: the characterization
applies to the one-cell board with player 1 to move. -/
theorem evaluate_count_characterization_witness :
    evaluate root4one root4one =
      (((List.range root4one.board.N).map (fun r =>
        ((List.range root4one.board.N).filter
          (fun c => decide (root4one.board.get (r, c) ≠ 0))).length)).sum : ℚ) * (1 / 100) +
      (if root4one.current_player = 1
        then (root4one.scores.getD 0 0 : ℚ) - (root4one.scores.getD 1 0 : ℚ)
        else (root4one.scores.getD 1 0 : ℚ) - (root4one.scores.getD 0 0 : ℚ)) :=
  evaluate_count_characterization root4one root4one (Or.inl (by decide))

/-! ## Alpha-beta versus brute-force minimax (claim C6) -/

theorem mmFoldMax_val_mono (recmm : Mv → XQ × Option Mv) :
    ∀ (L : List Mv) (v : XQ) (best : Option Mv), v ≤ (mmFoldMax recmm L v best).1 := by
  intro L
  induction L with
  | nil =>
    intro v best
    exact le_refl v
  | cons mv rest ih =>
    intro v best
    simp only [mmFoldMax]
    by_cases h : v < (recmm mv).1
    · simp only [if_pos h]
      exact le_trans (le_of_lt h) (ih _ _)
    · simp only [if_neg h]
      exact ih _ _

theorem mmFoldMin_val_mono (recmm : Mv → XQ × Option Mv) :
    ∀ (L : List Mv) (v : XQ) (best : Option Mv), (mmFoldMin recmm L v best).1 ≤ v := by
  intro L
  induction L with
  | nil =>
    intro v best
    exact le_refl v
  | cons mv rest ih =>
    intro v best
    simp only [mmFoldMin]
    by_cases h : (recmm mv).1 < v
    · simp only [if_pos h]
      exact le_trans (ih _ _) (le_of_lt h)
    · simp only [if_neg h]
      exact ih _ _

theorem abMax_bounds (beta alpha0 : XQ) (recab : Mv → XQ → XQ × Option Mv)
    (hchild : ∀ mv a, a < beta → ⊥ < (recab mv a).1 ∧ (recab mv a).1 < ⊤) :
    ∀ (L : List Mv) (v : XQ) (best : Option Mv) (a : XQ),
      a = max alpha0 v → a < beta → v < ⊤ →
      (abMax recab beta L v best a).1 < ⊤ ∧
        ((⊥ < v ∨ L ≠ []) → ⊥ < (abMax recab beta L v best a).1) := by
  intro L
  induction L with
  | nil =>
    intro v best a ha hab hv
    refine ⟨hv, ?_⟩
    rintro (h | h)
    · exact h
    · exact absurd rfl h
  | cons mv rest ih =>
    intro v best a ha hab hv
    obtain ⟨hsb, hst⟩ := hchild mv a hab
    simp only [abMax]
    by_cases hupd : v < (recab mv a).1
    · simp only [if_pos hupd]
      have hvb : ⊥ < (recab mv a).1 := hsb
      by_cases hbr : beta ≤ max a (recab mv a).1
      · simp only [if_pos hbr]
        exact ⟨hst, fun _ => hvb⟩
      · simp only [if_neg hbr]
        have ha' : max a (recab mv a).1 = max alpha0 (recab mv a).1 := by
          generalize (recab mv a).1 = s at hupd ⊢
          rw [ha, max_assoc]
          congr 1
          exact max_eq_right (le_of_lt hupd)
        have := ih (recab mv a).1 (some mv) (max a (recab mv a).1) ha'
          (not_le.mp hbr) hst
        exact ⟨this.1, fun _ => this.2 (Or.inl hvb)⟩
    · simp only [if_neg hupd]
      have hvb : ⊥ < v := lt_of_lt_of_le hsb (not_lt.mp hupd)
      by_cases hbr : beta ≤ max a v
      · simp only [if_pos hbr]
        exact ⟨hv, fun _ => hvb⟩
      · simp only [if_neg hbr]
        have ha' : max a v = max alpha0 v := by
          rw [ha, max_assoc, max_self]
        have := ih v best (max a v) ha' (not_le.mp hbr) hv
        exact ⟨this.1, fun _ => this.2 (Or.inl hvb)⟩

theorem abMin_bounds (alpha beta0 : XQ) (recab : Mv → XQ → XQ × Option Mv)
    (hchild : ∀ mv b, alpha < b → ⊥ < (recab mv b).1 ∧ (recab mv b).1 < ⊤) :
    ∀ (L : List Mv) (v : XQ) (best : Option Mv) (b : XQ),
      b = min beta0 v → alpha < b → ⊥ < v →
      ⊥ < (abMin recab alpha L v best b).1 ∧
        ((v < ⊤ ∨ L ≠ []) → (abMin recab alpha L v best b).1 < ⊤) := by
  intro L
  induction L with
  | nil =>
    intro v best b hb hab hv
    refine ⟨hv, ?_⟩
    rintro (h | h)
    · exact h
    · exact absurd rfl h
  | cons mv rest ih =>
    intro v best b hb hab hv
    obtain ⟨hsb, hst⟩ := hchild mv b hab
    simp only [abMin]
    by_cases hupd : (recab mv b).1 < v
    · simp only [if_pos hupd]
      by_cases hbr : min b (recab mv b).1 ≤ alpha
      · simp only [if_pos hbr]
        exact ⟨hsb, fun _ => hst⟩
      · simp only [if_neg hbr]
        have hb' : min b (recab mv b).1 = min beta0 (recab mv b).1 := by
          generalize (recab mv b).1 = s at hupd ⊢
          rw [hb, min_assoc]
          congr 1
          exact min_eq_right (le_of_lt hupd)
        have := ih (recab mv b).1 (some mv) (min b (recab mv b).1) hb'
          (not_le.mp hbr) hsb
        exact ⟨this.1, fun _ => this.2 (Or.inl hst)⟩
    · simp only [if_neg hupd]
      have hvt : v < ⊤ := lt_of_le_of_lt (not_lt.mp hupd) hst
      by_cases hbr : min b v ≤ alpha
      · simp only [if_pos hbr]
        exact ⟨hv, fun _ => hvt⟩
      · simp only [if_neg hbr]
        have hb' : min b v = min beta0 v := by
          rw [hb, min_assoc, min_self]
        have := ih v best (min b v) hb' (not_le.mp hbr) hv
        exact ⟨this.1, fun _ => this.2 (Or.inl hvt)⟩

theorem XQ_fin_bot_lt (q : ℚ) : (⊥ : XQ) < XQ.fin q := WithBot.bot_lt_coe _

theorem XQ_fin_lt_top (q : ℚ) : XQ.fin q < ⊤ := by
  have h : ((q : WithTop ℚ) : XQ) < ((⊤ : WithTop ℚ) : XQ) :=
    WithBot.coe_lt_coe.mpr (WithTop.coe_lt_top q)
  exact h

theorem sortDesc_ne_nil (root : GameState) {ms : List Mv} (h : ms ≠ []) :
    sortDesc root ms ≠ [] := by
  obtain ⟨x, hx⟩ := List.exists_mem_of_ne_nil ms h
  intro hnil
  have hmem : x ∈ sortDesc root ms := by
    unfold sortDesc
    exact List.mem_mergeSort.mpr hx
  rw [hnil] at hmem
  cases hmem

theorem sortAsc_ne_nil (root : GameState) {ms : List Mv} (h : ms ≠ []) :
    sortAsc root ms ≠ [] := by
  obtain ⟨x, hx⟩ := List.exists_mem_of_ne_nil ms h
  intro hnil
  have hmem : x ∈ sortAsc root ms := by
    unfold sortAsc
    exact List.mem_mergeSort.mpr hx
  rw [hnil] at hmem
  cases hmem

theorem alpha_beta_val_bounds (root : GameState) :
    ∀ (d : Nat) (gs : GameState) (a b : XQ) (mx : Bool), a < b →
      ⊥ < (alpha_beta root d gs a b mx).1 ∧ (alpha_beta root d gs a b mx).1 < ⊤ := by
  intro d
  induction d with
  | zero =>
    intro gs a b mx _
    exact ⟨XQ_fin_bot_lt _, XQ_fin_lt_top _⟩
  | succ d ih =>
    intro gs a b mx hab
    simp only [alpha_beta]
    by_cases hms : (nextMoves root gs).isEmpty
    · simp only [if_pos hms]
      exact ⟨XQ_fin_bot_lt _, XQ_fin_lt_top _⟩
    · simp only [if_neg hms]
      have hnil : nextMoves root gs ≠ [] := by
        intro hcon
        rw [hcon] at hms
        exact hms rfl
      cases mx with
      | true =>
        rw [if_pos rfl]
        have hres := abMax_bounds b a
          (fun mv a' => alpha_beta root d (apply_move_to_state gs mv) a' b false)
          (fun mv a' ha' => ih (apply_move_to_state gs mv) a' b false ha')
          (sortDesc root (nextMoves root gs)) ⊥ none a
          (max_eq_left bot_le).symm hab bot_lt_top
        exact ⟨hres.2 (Or.inr (sortDesc_ne_nil root hnil)), hres.1⟩
      | false =>
        rw [if_neg (by decide : ¬ (false = true))]
        have hres := abMin_bounds a b
          (fun mv b' => alpha_beta root d (apply_move_to_state gs mv) a b' true)
          (fun mv b' hb' => ih (apply_move_to_state gs mv) a b' true hb')
          (sortAsc root (nextMoves root gs)) ⊤ none b
          (min_eq_left le_top).symm hab bot_lt_top
        exact ⟨hres.1, hres.2 (Or.inr (sortAsc_ne_nil root hnil))⟩

theorem abMax_km (beta alpha0 : XQ)
    (recab : Mv → XQ → XQ × Option Mv) (recmm : Mv → XQ × Option Mv)
    (hchild : ∀ mv a, a < beta →
      ((recab mv a).1 ≤ a → (recmm mv).1 ≤ (recab mv a).1) ∧
      (beta ≤ (recab mv a).1 → (recab mv a).1 ≤ (recmm mv).1) ∧
      (a < (recab mv a).1 → (recab mv a).1 < beta → (recab mv a).1 = (recmm mv).1)) :
    ∀ (L : List Mv) (v w : XQ) (best bw : Option Mv) (a : XQ),
      a = max alpha0 v → a < beta → w ≤ v → (alpha0 < v → v ≤ w) →
      (((abMax recab beta L v best a).1 < beta ∧
        (mmFoldMax recmm L w bw).1 ≤ (abMax recab beta L v best a).1 ∧
        (alpha0 < (abMax recab beta L v best a).1 →
          (abMax recab beta L v best a).1 ≤ (mmFoldMax recmm L w bw).1)) ∨
       (beta ≤ (abMax recab beta L v best a).1 ∧
        (abMax recab beta L v best a).1 ≤ (mmFoldMax recmm L w bw).1)) := by
  intro L
  induction L with
  | nil =>
    intro v w best bw a ha hab hwv hvw
    left
    have hv : v ≤ a := ha ▸ le_max_right _ _
    exact ⟨lt_of_le_of_lt hv hab, hwv, hvw⟩
  | cons mv rest ih =>
    intro v w best bw a ha hab hwv hvw
    obtain ⟨hc1, hc2, hc3⟩ := hchild mv a hab
    simp only [abMax, mmFoldMax]
    by_cases hupd : v < (recab mv a).1
    · simp only [if_pos hupd]
      by_cases hbr : beta ≤ max a (recab mv a).1
      · simp only [if_pos hbr]
        right
        have hbs : beta ≤ (recab mv a).1 := by
          rcases le_max_iff.mp hbr with h | h
          · exact absurd h (not_le_of_lt hab)
          · exact h
        refine ⟨hbs, ?_⟩
        have hst := hc2 hbs
        have hwt : w < (recmm mv).1 :=
          lt_of_le_of_lt hwv (lt_of_lt_of_le hupd hst)
        simp only [if_pos hwt]
        exact le_trans hst (mmFoldMax_val_mono recmm rest _ _)
      · simp only [if_neg hbr]
        have habr : max a (recab mv a).1 < beta := not_le.mp hbr
        have hsb : (recab mv a).1 < beta := lt_of_le_of_lt (le_max_right _ _) habr
        have ha' : max a (recab mv a).1 = max alpha0 (recab mv a).1 := by
          generalize (recab mv a).1 = s at hupd ⊢
          rw [ha, max_assoc]
          congr 1
          exact max_eq_right (le_of_lt hupd)
        by_cases hsa : (recab mv a).1 ≤ a
        · have hts := hc1 hsa
          have hvac : ∀ w' : XQ, alpha0 < (recab mv a).1 → (recab mv a).1 ≤ w' := by
            intro w' halphas
            exfalso
            have hsa2 : (recab mv a).1 ≤ max alpha0 v := le_trans hsa (le_of_eq ha)
            rcases le_max_iff.mp hsa2 with h | h
            · exact absurd (lt_of_lt_of_le halphas h) (lt_irrefl _)
            · exact absurd (lt_of_lt_of_le hupd h) (lt_irrefl _)
          by_cases hwt : w < (recmm mv).1
          · simp only [if_pos hwt]
            exact ih (recab mv a).1 (recmm mv).1 (some mv) (some mv) _ ha' habr
              hts (hvac _)
          · simp only [if_neg hwt]
            exact ih (recab mv a).1 w (some mv) bw _ ha' habr
              (le_trans hwv (le_of_lt hupd)) (hvac _)
        · have has : a < (recab mv a).1 := not_le.mp hsa
          have hst := hc3 has hsb
          have hwt : w < (recmm mv).1 := by
            rw [← hst]
            exact lt_of_le_of_lt hwv hupd
          simp only [if_pos hwt]
          rw [← hst]
          exact ih (recab mv a).1 (recab mv a).1 (some mv) (some mv) _ ha' habr
            (le_refl _) (fun _ => le_refl _)
    · simp only [if_neg hupd]
      have hsv : (recab mv a).1 ≤ v := not_lt.mp hupd
      have hva : v ≤ a := ha ▸ le_max_right _ _
      have hmaxa : max a v = a := max_eq_left hva
      rw [hmaxa]
      simp only [if_neg (not_le_of_lt hab)]
      have hts := hc1 (le_trans hsv hva)
      have htv : (recmm mv).1 ≤ v := le_trans hts hsv
      by_cases hwt : w < (recmm mv).1
      · simp only [if_pos hwt]
        exact ih v (recmm mv).1 best (some mv) a ha hab htv
          (fun h0 => le_trans (hvw h0) (le_of_lt hwt))
      · simp only [if_neg hwt]
        exact ih v w best bw a ha hab hwv hvw

theorem abMin_km (alpha beta0 : XQ)
    (recab : Mv → XQ → XQ × Option Mv) (recmm : Mv → XQ × Option Mv)
    (hchild : ∀ mv b, alpha < b →
      ((recab mv b).1 ≤ alpha → (recmm mv).1 ≤ (recab mv b).1) ∧
      (b ≤ (recab mv b).1 → (recab mv b).1 ≤ (recmm mv).1) ∧
      (alpha < (recab mv b).1 → (recab mv b).1 < b → (recab mv b).1 = (recmm mv).1)) :
    ∀ (L : List Mv) (v w : XQ) (best bw : Option Mv) (b : XQ),
      b = min beta0 v → alpha < b → v ≤ w → (v < beta0 → w ≤ v) →
      ((alpha < (abMin recab alpha L v best b).1 ∧
        (abMin recab alpha L v best b).1 ≤ (mmFoldMin recmm L w bw).1 ∧
        ((abMin recab alpha L v best b).1 < beta0 →
          (mmFoldMin recmm L w bw).1 ≤ (abMin recab alpha L v best b).1)) ∨
       ((abMin recab alpha L v best b).1 ≤ alpha ∧
        (mmFoldMin recmm L w bw).1 ≤ (abMin recab alpha L v best b).1)) := by
  intro L
  induction L with
  | nil =>
    intro v w best bw b hb hab hvw hwv
    left
    have hv : b ≤ v := hb ▸ min_le_right _ _
    exact ⟨lt_of_lt_of_le hab hv, hvw, hwv⟩
  | cons mv rest ih =>
    intro v w best bw b hb hab hvw hwv
    obtain ⟨hc1, hc2, hc3⟩ := hchild mv b hab
    simp only [abMin, mmFoldMin]
    by_cases hupd : (recab mv b).1 < v
    · simp only [if_pos hupd]
      by_cases hbr : min b (recab mv b).1 ≤ alpha
      · simp only [if_pos hbr]
        right
        have hsa : (recab mv b).1 ≤ alpha := by
          rcases min_le_iff.mp hbr with h | h
          · exact absurd h (not_le_of_lt hab)
          · exact h
        refine ⟨hsa, ?_⟩
        have hts := hc1 hsa
        have hwt : (recmm mv).1 < w :=
          lt_of_le_of_lt hts (lt_of_lt_of_le hupd hvw)
        simp only [if_pos hwt]
        exact le_trans (mmFoldMin_val_mono recmm rest _ _) hts
      · simp only [if_neg hbr]
        have habr : alpha < min b (recab mv b).1 := not_le.mp hbr
        have hsb : alpha < (recab mv b).1 := lt_of_lt_of_le habr (min_le_right _ _)
        have hb' : min b (recab mv b).1 = min beta0 (recab mv b).1 := by
          generalize (recab mv b).1 = s at hupd ⊢
          rw [hb, min_assoc]
          congr 1
          exact min_eq_right (le_of_lt hupd)
        by_cases hsa : b ≤ (recab mv b).1
        · have hts := hc2 hsa
          have hvac : ∀ w' : XQ, (recab mv b).1 < beta0 → w' ≤ (recab mv b).1 := by
            intro w' hsbeta
            exfalso
            have hsa2 : min beta0 v ≤ (recab mv b).1 := le_of_eq hb.symm |>.trans hsa
            rcases min_le_iff.mp hsa2 with h | h
            · exact absurd (lt_of_le_of_lt h hsbeta) (lt_irrefl _)
            · exact absurd (lt_of_le_of_lt h hupd) (lt_irrefl _)
          by_cases hwt : (recmm mv).1 < w
          · simp only [if_pos hwt]
            exact ih (recab mv b).1 (recmm mv).1 (some mv) (some mv) _ hb' habr
              hts (hvac _)
          · simp only [if_neg hwt]
            exact ih (recab mv b).1 w (some mv) bw _ hb' habr
              (le_trans (le_of_lt hupd) hvw) (hvac _)
        · have has : (recab mv b).1 < b := not_le.mp hsa
          have hst := hc3 hsb has
          have hwt : (recmm mv).1 < w := by
            rw [← hst]
            exact lt_of_lt_of_le hupd hvw
          simp only [if_pos hwt]
          rw [← hst]
          exact ih (recab mv b).1 (recab mv b).1 (some mv) (some mv) _ hb' habr
            (le_refl _) (fun _ => le_refl _)
    · simp only [if_neg hupd]
      have hsv : v ≤ (recab mv b).1 := not_lt.mp hupd
      have hva : b ≤ v := hb ▸ min_le_right _ _
      have hminb : min b v = b := min_eq_left hva
      rw [hminb]
      simp only [if_neg (not_le_of_lt hab)]
      have hts := hc2 (le_trans hva hsv)
      have htv : v ≤ (recmm mv).1 := le_trans hsv hts
      by_cases hwt : (recmm mv).1 < w
      · simp only [if_pos hwt]
        exact ih v (recmm mv).1 best (some mv) b hb hab htv
          (fun h0 => le_trans (le_of_lt hwt) (hwv h0))
      · simp only [if_neg hwt]
        exact ih v w best bw b hb hab hvw hwv

theorem alpha_beta_km (root : GameState) :
    ∀ (d : Nat) (gs : GameState) (a b : XQ) (mx : Bool), a < b →
      ((alpha_beta root d gs a b mx).1 ≤ a →
        (bruteForceMinimax root d gs mx).1 ≤ (alpha_beta root d gs a b mx).1) ∧
      (b ≤ (alpha_beta root d gs a b mx).1 →
        (alpha_beta root d gs a b mx).1 ≤ (bruteForceMinimax root d gs mx).1) ∧
      (a < (alpha_beta root d gs a b mx).1 → (alpha_beta root d gs a b mx).1 < b →
        (alpha_beta root d gs a b mx).1 = (bruteForceMinimax root d gs mx).1) := by
  intro d
  induction d with
  | zero =>
    intro gs a b mx _
    exact ⟨fun _ => le_refl _, fun _ => le_refl _, fun _ _ => rfl⟩
  | succ d ih =>
    intro gs a b mx hab
    simp only [alpha_beta, bruteForceMinimax]
    by_cases hms : (nextMoves root gs).isEmpty
    · simp only [if_pos hms]
      exact ⟨fun _ => le_refl _, fun _ => le_refl _, fun _ _ => trivial⟩
    · simp only [if_neg hms]
      cases mx with
      | true =>
        rw [if_pos (by decide), if_pos (by decide)]
        have hres := abMax_km b a
          (fun mv a' => alpha_beta root d (apply_move_to_state gs mv) a' b false)
          (fun mv => bruteForceMinimax root d (apply_move_to_state gs mv) false)
          (fun mv a' ha' => ih (apply_move_to_state gs mv) a' b false ha')
          (sortDesc root (nextMoves root gs)) ⊥ ⊥ none none a
          (max_eq_left bot_le).symm hab (le_refl _) (fun h => absurd h (not_lt_bot))
        rcases hres with ⟨hVb, hWV, hVW⟩ | ⟨hbV, hVW⟩
        · exact ⟨fun _ => hWV, fun hb2 => absurd hb2 (not_le_of_lt hVb),
            fun ha2 _ => le_antisymm (hVW ha2) hWV⟩
        · exact ⟨fun hVa => absurd (lt_of_le_of_lt hVa hab) (not_lt.mpr hbV),
            fun _ => hVW, fun _ hVb2 => absurd hVb2 (not_lt.mpr hbV)⟩
      | false =>
        rw [if_neg (by decide), if_neg (by decide)]
        have hres := abMin_km a b
          (fun mv b' => alpha_beta root d (apply_move_to_state gs mv) a b' true)
          (fun mv => bruteForceMinimax root d (apply_move_to_state gs mv) true)
          (fun mv b' hb' => ih (apply_move_to_state gs mv) a b' true hb')
          (sortAsc root (nextMoves root gs)) ⊤ ⊤ none none b
          (min_eq_left le_top).symm hab (le_refl _) (fun h => absurd h not_top_lt)
        rcases hres with ⟨haV, hVW, hWVc⟩ | ⟨hVa, hWV⟩
        · exact ⟨fun hVa2 => absurd hVa2 (not_le.mpr haV), fun _ => hVW,
            fun _ hb2 => le_antisymm hVW (hWVc hb2)⟩
        · exact ⟨fun _ => hWV, fun hbV => absurd (le_trans hbV hVa) (not_le_of_lt hab),
            fun haV2 _ => absurd haV2 (not_lt.mpr hVa)⟩

theorem abMax_full_eq (recab : Mv → XQ → XQ × Option Mv) (recmm : Mv → XQ × Option Mv)
    (hchild : ∀ mv a, a < ⊤ →
      (((recab mv a).1 ≤ a → (recmm mv).1 ≤ (recab mv a).1) ∧
       ((⊤ : XQ) ≤ (recab mv a).1 → (recab mv a).1 ≤ (recmm mv).1) ∧
       (a < (recab mv a).1 → (recab mv a).1 < ⊤ → (recab mv a).1 = (recmm mv).1)))
    (hbound : ∀ mv a, a < ⊤ → (recab mv a).1 < ⊤) :
    ∀ (L : List Mv) (v : XQ) (best : Option Mv), v < ⊤ →
      abMax recab ⊤ L v best v = mmFoldMax recmm L v best := by
  intro L
  induction L with
  | nil =>
    intro v best _
    rfl
  | cons mv rest ih =>
    intro v best hv
    obtain ⟨hc1, _, hc3⟩ := hchild mv v hv
    have hst := hbound mv v hv
    simp only [abMax, mmFoldMax]
    by_cases hupd : v < (recab mv v).1
    · have heq := hc3 hupd hst
      have hupd2 : v < (recmm mv).1 := heq ▸ hupd
      simp only [if_pos hupd, if_pos hupd2]
      have hmax : max v (recab mv v).1 = (recab mv v).1 := max_eq_right (le_of_lt hupd)
      rw [hmax, if_neg (not_le_of_lt hst), ← heq]
      exact ih (recab mv v).1 (some mv) hst
    · have hsv : (recab mv v).1 ≤ v := not_lt.mp hupd
      have hts := hc1 hsv
      have hupd2 : ¬ v < (recmm mv).1 := not_lt.mpr (le_trans hts hsv)
      simp only [if_neg hupd, if_neg hupd2]
      rw [max_self, if_neg (not_le_of_lt hv)]
      exact ih v best hv

theorem alpha_beta_full_window_eq (root : GameState) :
    ∀ (d : Nat) (gs : GameState),
      alpha_beta root d gs ⊥ ⊤ true = bruteForceMinimax root d gs true := by
  intro d gs
  cases d with
  | zero => rfl
  | succ d =>
    simp only [alpha_beta, bruteForceMinimax]
    by_cases hms : (nextMoves root gs).isEmpty
    · simp only [if_pos hms]
    · simp only [if_neg hms]
      rw [if_pos (by decide), if_pos (by decide)]
      exact abMax_full_eq
        (fun mv a' => alpha_beta root d (apply_move_to_state gs mv) a' ⊤ false)
        (fun mv => bruteForceMinimax root d (apply_move_to_state gs mv) false)
        (fun mv a' ha' => alpha_beta_km root d (apply_move_to_state gs mv) a' ⊤ false ha')
        (fun mv a' ha' =>
          (alpha_beta_val_bounds root d (apply_move_to_state gs mv) a' ⊤ false ha').2)
        (sortDesc root (nextMoves root gs)) ⊥ none bot_lt_top

/-- C6: for every root state and depth, the root call of alpha_beta with
the full window (-inf, +inf) and maximizing = true returns exactly the
(value, move) pair of the brute-force depth-d minimax over the same move
enumeration and exploration order, which applies evaluate at depth-0 and
no-move nodes; in particular the alpha >= beta sibling cutoff never
changes the returned value or move. -/
theorem alpha_beta_root_equals_bruteForceMinimax (root : GameState) (d : Nat) :
    alpha_beta root d root ⊥ ⊤ true = bruteForceMinimax root d root true :=
  alpha_beta_full_window_eq root d root

/-! ## The timed search and the iterative-deepening driver -/

theorem alpha_betaT_zero (clock : Nat → Bool) (root gs : GameState)
    (a b : XQ) (mx : Bool) (t : Nat) :
    alpha_betaT clock root 0 gs a b mx t =
      if clock t then .error ()
      else .ok ((XQ.fin (evaluate root gs), none), t + 1) := by
  rw [alpha_betaT.eq_def]

theorem alpha_betaT_succ (clock : Nat → Bool) (root gs : GameState)
    (d : Nat) (a b : XQ) (mx : Bool) (t : Nat) :
    alpha_betaT clock root (d + 1) gs a b mx t =
      if clock t then .error ()
      else if (nextMoves root gs).isEmpty then
        .ok ((XQ.fin (evaluate root gs), none), t + 1)
      else if mx then
        abMaxT (fun mv a' t' => alpha_betaT clock root d (apply_move_to_state gs mv) a' b false t')
          b (sortDesc root (nextMoves root gs)) ⊥ none a (t + 1)
      else
        abMinT (fun mv b' t' => alpha_betaT clock root d (apply_move_to_state gs mv) a b' true t')
          a (sortAsc root (nextMoves root gs)) ⊤ none b (t + 1) := by
  rw [alpha_betaT.eq_def]

theorem alpha_betaT_timeout (clock : Nat → Bool) (root : GameState)
    (depth : Nat) (gs : GameState) (a b : XQ) (mx : Bool) (t : Nat)
    (h : clock t = true) :
    alpha_betaT clock root depth gs a b mx t = .error () := by
  cases depth with
  | zero => rw [alpha_betaT_zero, if_pos h]
  | succ d => rw [alpha_betaT_succ, if_pos h]

theorem abMaxT_ticks (clock : Nat → Bool)
    (rec : Mv → XQ → Nat → Except Unit ((XQ × Option Mv) × Nat)) (beta : XQ)
    (hrec : ∀ mv a t r t', rec mv a t = .ok (r, t') →
      t < t' ∧ ∀ u, t ≤ u → u < t' → clock u = false) :
    ∀ (L : List Mv) (v : XQ) (best : Option Mv) (a : XQ) (t : Nat) r t',
      abMaxT rec beta L v best a t = .ok (r, t') →
      t ≤ t' ∧ ∀ u, t ≤ u → u < t' → clock u = false := by
  intro L
  induction L with
  | nil =>
    intro v best a t r t' h
    simp only [abMaxT] at h
    injection h with h1
    injection h1 with ha hb
    subst hb
    exact ⟨le_refl t, fun u hu1 hu2 => absurd (lt_of_le_of_lt hu1 hu2) (lt_irrefl _)⟩
  | cons mv rest ih =>
    intro v best a t r t' h
    simp only [abMaxT] at h
    cases hrec0 : rec mv a t with
    | error e =>
      rw [hrec0] at h
      cases h
    | ok rt =>
      obtain ⟨r0, t0⟩ := rt
      rw [hrec0] at h
      obtain ⟨ht0, hclk0⟩ := hrec mv a t r0 t0 hrec0
      by_cases hbr : beta ≤ max a (if v < r0.1 then r0.1 else v)
      · simp only [if_pos hbr] at h
        injection h with h1
        injection h1 with ha hb
        subst hb
        exact ⟨le_of_lt ht0, hclk0⟩
      · simp only [if_neg hbr] at h
        obtain ⟨ht', hclk'⟩ := ih _ _ _ _ r t' h
        refine ⟨le_trans (le_of_lt ht0) ht', fun u hu1 hu2 => ?_⟩
        by_cases hu : u < t0
        · exact hclk0 u hu1 hu
        · exact hclk' u (not_lt.mp hu) hu2

theorem abMinT_ticks (clock : Nat → Bool)
    (rec : Mv → XQ → Nat → Except Unit ((XQ × Option Mv) × Nat)) (alpha : XQ)
    (hrec : ∀ mv b t r t', rec mv b t = .ok (r, t') →
      t < t' ∧ ∀ u, t ≤ u → u < t' → clock u = false) :
    ∀ (L : List Mv) (v : XQ) (best : Option Mv) (b : XQ) (t : Nat) r t',
      abMinT rec alpha L v best b t = .ok (r, t') →
      t ≤ t' ∧ ∀ u, t ≤ u → u < t' → clock u = false := by
  intro L
  induction L with
  | nil =>
    intro v best b t r t' h
    simp only [abMinT] at h
    injection h with h1
    injection h1 with ha hb
    subst hb
    exact ⟨le_refl t, fun u hu1 hu2 => absurd (lt_of_le_of_lt hu1 hu2) (lt_irrefl _)⟩
  | cons mv rest ih =>
    intro v best b t r t' h
    simp only [abMinT] at h
    cases hrec0 : rec mv b t with
    | error e =>
      rw [hrec0] at h
      cases h
    | ok rt =>
      obtain ⟨r0, t0⟩ := rt
      rw [hrec0] at h
      obtain ⟨ht0, hclk0⟩ := hrec mv b t r0 t0 hrec0
      by_cases hbr : min b (if r0.1 < v then r0.1 else v) ≤ alpha
      · simp only [if_pos hbr] at h
        injection h with h1
        injection h1 with ha hb
        subst hb
        exact ⟨le_of_lt ht0, hclk0⟩
      · simp only [if_neg hbr] at h
        obtain ⟨ht', hclk'⟩ := ih _ _ _ _ r t' h
        refine ⟨le_trans (le_of_lt ht0) ht', fun u hu1 hu2 => ?_⟩
        by_cases hu : u < t0
        · exact hclk0 u hu1 hu
        · exact hclk' u (not_lt.mp hu) hu2

theorem alpha_betaT_ticks (clock : Nat → Bool) (root : GameState) :
    ∀ (d : Nat) (gs : GameState) (a b : XQ) (mx : Bool) (t : Nat) r t',
      alpha_betaT clock root d gs a b mx t = .ok (r, t') →
      t < t' ∧ ∀ u, t ≤ u → u < t' → clock u = false := by
  intro d
  induction d with
  | zero =>
    intro gs a b mx t r t' h
    rw [alpha_betaT_zero] at h
    by_cases hc : clock t
    · rw [if_pos hc] at h
      cases h
    · rw [if_neg hc] at h
      injection h with h1
      injection h1 with ha hb
      subst hb
      refine ⟨Nat.lt_succ_self t, fun u hu1 hu2 => ?_⟩
      have heq : u = t := by omega
      subst heq
      exact eq_false_of_ne_true hc
  | succ d ih =>
    intro gs a b mx t r t' h
    rw [alpha_betaT_succ] at h
    by_cases hc : clock t
    · rw [if_pos hc] at h
      cases h
    · rw [if_neg hc] at h
      have hstep : ∀ u, t ≤ u → u < t + 1 → clock u = false := by
        intro u hu1 hu2
        have heq : u = t := by omega
        subst heq
        exact eq_false_of_ne_true hc
      by_cases hms : (nextMoves root gs).isEmpty
      · rw [if_pos hms] at h
        injection h with h1
        injection h1 with ha hb
        subst hb
        exact ⟨Nat.lt_succ_self t, hstep⟩
      · rw [if_neg hms] at h
        have hcomb : t + 1 ≤ t' → (∀ u, t + 1 ≤ u → u < t' → clock u = false) →
            t < t' ∧ ∀ u, t ≤ u → u < t' → clock u = false := by
          intro hle hclk
          refine ⟨lt_of_lt_of_le (Nat.lt_succ_self t) hle, fun u hu1 hu2 => ?_⟩
          by_cases hu : u < t + 1
          · exact hstep u hu1 hu
          · exact hclk u (not_lt.mp hu) hu2
        cases mx with
        | true =>
          rw [if_pos (by decide)] at h
          have hres := abMaxT_ticks clock _ b
            (fun mv a' t0 r0 t0' h0 =>
              ih (apply_move_to_state gs mv) a' b false t0 r0 t0' h0)
            (sortDesc root (nextMoves root gs)) ⊥ none a (t + 1) r t' h
          exact hcomb hres.1 hres.2
        | false =>
          rw [if_neg (by decide)] at h
          have hres := abMinT_ticks clock _ a
            (fun mv b' t0 r0 t0' h0 =>
              ih (apply_move_to_state gs mv) a b' true t0 r0 t0' h0)
            (sortAsc root (nextMoves root gs)) ⊤ none b (t + 1) r t' h
          exact hcomb hres.1 hres.2

theorem abMaxT_best_mem
    (rec : Mv → XQ → Nat → Except Unit ((XQ × Option Mv) × Nat)) (beta : XQ) :
    ∀ (L : List Mv) (v : XQ) (best : Option Mv) (a : XQ) (t : Nat) r t',
      abMaxT rec beta L v best a t = .ok (r, t') →
      (r.2 = best ∨ ∃ mv ∈ L, r.2 = some mv) := by
  intro L
  induction L with
  | nil =>
    intro v best a t r t' h
    simp only [abMaxT] at h
    injection h with h1
    injection h1 with ha hb
    rw [← ha]
    exact Or.inl rfl
  | cons mv rest ih =>
    intro v best a t r t' h
    simp only [abMaxT] at h
    cases hrec0 : rec mv a t with
    | error e =>
      rw [hrec0] at h
      cases h
    | ok rt =>
      obtain ⟨r0, t0⟩ := rt
      rw [hrec0] at h
      by_cases hbr : beta ≤ max a (if v < r0.1 then r0.1 else v)
      · simp only [if_pos hbr] at h
        injection h with h1
        injection h1 with ha hb
        rw [← ha]
        by_cases hupd : v < r0.1
        · simp only [if_pos hupd]
          exact Or.inr ⟨mv, List.mem_cons_self _ _, rfl⟩
        · simp only [if_neg hupd]
          exact Or.inl trivial
      · simp only [if_neg hbr] at h
        rcases ih _ _ _ _ r t' h with h2 | ⟨mv2, hmem, h2⟩
        · by_cases hupd : v < r0.1
          · rw [if_pos hupd] at h2
            exact Or.inr ⟨mv, List.mem_cons_self _ _, h2⟩
          · rw [if_neg hupd] at h2
            exact Or.inl h2
        · exact Or.inr ⟨mv2, List.mem_cons_of_mem _ hmem, h2⟩

theorem abMinT_best_mem
    (rec : Mv → XQ → Nat → Except Unit ((XQ × Option Mv) × Nat)) (alpha : XQ) :
    ∀ (L : List Mv) (v : XQ) (best : Option Mv) (b : XQ) (t : Nat) r t',
      abMinT rec alpha L v best b t = .ok (r, t') →
      (r.2 = best ∨ ∃ mv ∈ L, r.2 = some mv) := by
  intro L
  induction L with
  | nil =>
    intro v best b t r t' h
    simp only [abMinT] at h
    injection h with h1
    injection h1 with ha hb
    rw [← ha]
    exact Or.inl rfl
  | cons mv rest ih =>
    intro v best b t r t' h
    simp only [abMinT] at h
    cases hrec0 : rec mv b t with
    | error e =>
      rw [hrec0] at h
      cases h
    | ok rt =>
      obtain ⟨r0, t0⟩ := rt
      rw [hrec0] at h
      by_cases hbr : min b (if r0.1 < v then r0.1 else v) ≤ alpha
      · simp only [if_pos hbr] at h
        injection h with h1
        injection h1 with ha hb
        rw [← ha]
        by_cases hupd : r0.1 < v
        · simp only [if_pos hupd]
          exact Or.inr ⟨mv, List.mem_cons_self _ _, rfl⟩
        · simp only [if_neg hupd]
          exact Or.inl trivial
      · simp only [if_neg hbr] at h
        rcases ih _ _ _ _ r t' h with h2 | ⟨mv2, hmem, h2⟩
        · by_cases hupd : r0.1 < v
          · rw [if_pos hupd] at h2
            exact Or.inr ⟨mv, List.mem_cons_self _ _, h2⟩
          · rw [if_neg hupd] at h2
            exact Or.inl h2
        · exact Or.inr ⟨mv2, List.mem_cons_of_mem _ hmem, h2⟩

theorem alpha_betaT_best_mem (clock : Nat → Bool) (root : GameState)
    (d : Nat) (gs : GameState) (a b : XQ) (mx : Bool) (t : Nat)
    (v : XQ) (mvb : Mv) (t' : Nat)
    (h : alpha_betaT clock root d gs a b mx t = .ok ((v, some mvb), t')) :
    mvb ∈ nextMoves root gs := by
  cases d with
  | zero =>
    rw [alpha_betaT_zero] at h
    by_cases hc : clock t
    · rw [if_pos hc] at h
      cases h
    · rw [if_neg hc] at h
      injection h with h1
      injection h1 with ha hb
      injection ha with ha1 ha2
      cases ha2
  | succ d =>
    rw [alpha_betaT_succ] at h
    by_cases hc : clock t
    · rw [if_pos hc] at h
      cases h
    · rw [if_neg hc] at h
      by_cases hms : (nextMoves root gs).isEmpty
      · rw [if_pos hms] at h
        injection h with h1
        injection h1 with ha hb
        injection ha with ha1 ha2
        cases ha2
      · rw [if_neg hms] at h
        cases mx with
        | true =>
          rw [if_pos (by decide)] at h
          rcases abMaxT_best_mem _ b _ _ _ _ _ _ _ h with h2 | ⟨mv2, hmem, h2⟩
          · cases h2
          · have : mvb = mv2 := by
              injection h2
            subst this
            unfold sortDesc at hmem
            exact List.mem_mergeSort.mp hmem
        | false =>
          rw [if_neg (by decide)] at h
          rcases abMinT_best_mem _ a _ _ _ _ _ _ _ h with h2 | ⟨mv2, hmem, h2⟩
          · cases h2
          · have : mvb = mv2 := by
              injection h2
            subst this
            unfold sortAsc at hmem
            exact List.mem_mergeSort.mp hmem

theorem driverLoopT_spec (clock : Nat → Bool) (root : GameState) :
    ∀ (fuel d t : Nat) (best : Mv) (acc : List Mv),
      ((driverLoopT clock root fuel d t best acc).2 = best ∨
        ∃ d' t0 v t1, alpha_betaT clock root d' root ⊥ ⊤ true t0 =
          .ok ((v, some ((driverLoopT clock root fuel d t best acc).2)), t1)) ∧
      (∀ mv ∈ (driverLoopT clock root fuel d t best acc).1, mv ∈ acc ∨
        ∃ d' t0 v t1, alpha_betaT clock root d' root ⊥ ⊤ true t0 =
          .ok ((v, some mv), t1)) := by
  intro fuel
  induction fuel with
  | zero =>
    intro d t best acc
    exact ⟨Or.inl rfl, fun mv h => Or.inl h⟩
  | succ fuel ih =>
    intro d t best acc
    simp only [driverLoopT]
    by_cases hc : clock t
    · simp only [if_pos hc]
      exact ⟨Or.inl trivial, fun mv h => Or.inl h⟩
    · simp only [if_neg hc]
      cases hab : alpha_betaT clock root d root ⊥ ⊤ true (t + 1) with
      | error e =>
        exact ⟨Or.inl rfl, fun mv h => Or.inl h⟩
      | ok rt =>
        obtain ⟨⟨v, mvo⟩, t'⟩ := rt
        cases mvo with
        | none => exact ih (d + 1) t' best acc
        | some mv0 =>
          have hmain := ih (d + 1) t' mv0 (acc ++ [mv0])
          refine ⟨?_, ?_⟩
          · rcases hmain.1 with h | h
            · right
              exact ⟨d, t + 1, v, t', by rw [h]; exact hab⟩
            · exact Or.inr h
          · intro mv hmv
            rcases hmain.2 mv hmv with h | h
            · rcases List.mem_append.mp h with h2 | h2
              · exact Or.inl h2
              · right
                have heq : mv = mv0 := List.mem_singleton.mp h2
                subst heq
                exact ⟨d, t + 1, v, t', hab⟩
            · exact Or.inr h

theorem driverLoopT_discard (clock : Nat → Bool) (root : GameState)
    (fuel d t : Nat) (best : Mv) (acc : List Mv)
    (hc : clock t = false)
    (herr : alpha_betaT clock root d root ⊥ ⊤ true (t + 1) = .error ()) :
    driverLoopT clock root (fuel + 1) d t best acc = (acc, best) := by
  simp only [driverLoopT]
  rw [if_neg (by simp [hc]), herr]

theorem mem_nextMoves_isLegal (root gs : GameState) {mv : Mv}
    (h : mv ∈ nextMoves root gs) : is_legal_move root mv.1 mv.2.1 mv.2.2 = true := by
  unfold nextMoves at h
  rcases List.mem_flatMap.mp h with ⟨sq, hsq, hmem⟩
  by_cases hempty : gs.board.get sq ≠ 0
  · rw [if_pos hempty] at hmem
    cases hmem
  · rw [if_neg hempty] at hmem
    rcases List.mem_map.mp hmem with ⟨v, hv, heq⟩
    have hfil := List.mem_filter.mp hv
    rw [← heq]
    exact hfil.2

theorem fallback_mem (root : GameState) (k : Nat) (h : legalMovesList root ≠ []) :
    fallbackMove root k ∈ legalMovesList root := by
  unfold fallbackMove
  have hlen : 0 < (legalMovesList root).length := List.length_pos.mpr h
  have hk : k % (legalMovesList root).length < (legalMovesList root).length :=
    Nat.mod_lt _ hlen
  rw [List.getD_eq_getElem _ _ hk]
  exact List.getElem_mem hk

theorem legal_props (root : GameState) (hwf : WFState root) {i j v : Nat}
    (h : is_legal_move root i j v = true) : RootLegalProps root (i, j, v) := by
  obtain ⟨hi, hj⟩ := legal_coords_lt root hwf h
  obtain ⟨_, h2, h3, h4, h5, h6, h7, h8⟩ :=
    (is_legal_move_iff root hwf.1 hwf.2.1 v hi hj).mp h
  exact ⟨h2, h3, h4, h5, h6, h7, h8⟩

/-- C1: every move compute_best_move ever passes to propose_move — the
initial fallback, each adopted completed-depth result, and the final move
republished forever — satisfies the root-state safety properties (empty
target, value in 1..N, non-taboo, no duplicate in row, column or region),
and when the root legal-move list is empty nothing is ever proposed. -/
theorem proposals_legal_at_root (root : GameState) (hwf : WFState root)
    (clock : Nat → Bool) (k fuel : Nat) :
    (∀ mv ∈ proposalsT clock root k fuel, RootLegalProps root mv) ∧
    (legalMovesList root = [] → proposalsT clock root k fuel = []) ∧
    (∀ mv, finalMoveT clock root k fuel = some mv → RootLegalProps root mv) := by
  have hlegal : ∀ mv ∈ legalMovesList root, RootLegalProps root mv := by
    intro mv hmv
    exact legal_props root hwf (mem_nextMoves_isLegal root root hmv)
  by_cases hnil : legalMovesList root = []
  · have hempty : (legalMovesList root).isEmpty = true := by simp [hnil]
    refine ⟨?_, fun _ => ?_, ?_⟩
    · intro mv hmv
      unfold proposalsT at hmv
      rw [if_pos hempty] at hmv
      cases hmv
    · unfold proposalsT
      rw [if_pos hempty]
    · intro mv hmv
      unfold finalMoveT at hmv
      rw [if_pos hempty] at hmv
      cases hmv
  · have hcond : ¬ ((legalMovesList root).isEmpty = true) :=
      fun hc => hnil (List.isEmpty_iff.mp hc)
    have hdrv := driverLoopT_spec clock root fuel 1 0 (fallbackMove root k) []
    refine ⟨?_, fun hcontra => absurd hcontra hnil, ?_⟩
    · intro mv hmv
      unfold proposalsT at hmv
      rw [if_neg hcond] at hmv
      rcases List.mem_cons.mp hmv with h1 | h1
      · subst h1
        exact hlegal _ (fallback_mem root k hnil)
      · rcases hdrv.2 mv h1 with h2 | ⟨d', t0, v, t1, hrun⟩
        · cases h2
        · exact hlegal _ (alpha_betaT_best_mem clock root d' root ⊥ ⊤ true t0 v mv t1 hrun)
    · intro mv hmv
      unfold finalMoveT at hmv
      rw [if_neg hcond] at hmv
      injection hmv with h1
      rcases hdrv.1 with h2 | ⟨d', t0, v, t1, hrun⟩
      · rw [← h1, h2]
        exact hlegal _ (fallback_mem root k hnil)
      · rw [← h1]
        exact hlegal _ (alpha_betaT_best_mem clock root d' root ⊥ ⊤ true t0 v _ t1 hrun)

/-- Witness for C1 at a concrete input: with the empty 1 by 1 root, the
published fallback (0, 0, 1) satisfies the root safety properties. -/
theorem proposals_legal_at_root_witness : RootLegalProps root1 (0, 0, 1) :=
  (proposals_legal_at_root root1
    ⟨by decide, by decide, by decide, by decide, by decide⟩ clock1 0 1).1
    (0, 0, 1) (by decide)

/-- C4: whenever the root legal-move list is non-empty, the fallback move
is one of its members and is published first, before any search, under
every clock — in particular a clock that is already past the deadline at
every read still yields exactly the one published fallback — and when the
list is empty nothing is published under any clock. -/
theorem immediate_fallback_publication (root : GameState) (k : Nat) :
    (legalMovesList root ≠ [] →
      fallbackMove root k ∈ legalMovesList root ∧
      (∀ clock fuel, ∃ rest, proposalsT clock root k fuel =
        fallbackMove root k :: rest) ∧
      (∀ fuel, proposalsT (fun _ => true) root k fuel = [fallbackMove root k])) ∧
    (legalMovesList root = [] → ∀ clock fuel, proposalsT clock root k fuel = []) := by
  constructor
  · intro hnil
    have hcond : ¬ ((legalMovesList root).isEmpty = true) :=
      fun hc => hnil (List.isEmpty_iff.mp hc)
    refine ⟨fallback_mem root k hnil, ?_, ?_⟩
    · intro clock fuel
      refine ⟨(driverLoopT clock root fuel 1 0 (fallbackMove root k) []).1, ?_⟩
      unfold proposalsT
      rw [if_neg hcond]
    · intro fuel
      unfold proposalsT
      rw [if_neg hcond]
      have hacc : (driverLoopT (fun _ => true) root fuel 1 0 (fallbackMove root k) []).1
          = [] := by
        cases fuel with
        | zero => rfl
        | succ fuel => simp only [driverLoopT, if_pos]
      rw [hacc]
  · intro hnil clock fuel
    unfold proposalsT
    rw [if_pos (by simp [hnil])]

/-- Witness for C4 at a concrete input: on the 1 by 1 root with an
already-expired clock, exactly the fallback is published. -/
theorem immediate_fallback_publication_witness :
    proposalsT (fun _ => true) root1 0 3 = [fallbackMove root1 0] :=
  ((immediate_fallback_publication root1 0).1 (by decide)).2.2 3

/-- C5: every entry of the timed search first compares the clock against
the budget and raises the cancellation when exceeded; a depth returning ok
is one in which no active frame ever observed the deadline passed (so a
raise unwinds every frame of the depth to the driver, the sole recovery
point); the driver, when a depth's search raises, stops and keeps its
accumulated publications and standing move unchanged, discarding the
partial depth; and the standing move is always the fallback it started
with or the move of a fully completed depth, every published move coming
from a completed depth. -/
theorem timeout_discards_partial_depth (clock : Nat → Bool) (root : GameState) :
    (∀ depth gs a b mx t, clock t = true →
      alpha_betaT clock root depth gs a b mx t = .error ()) ∧
    (∀ d gs a b mx t r t', alpha_betaT clock root d gs a b mx t = .ok (r, t') →
      t < t' ∧ ∀ u, t ≤ u → u < t' → clock u = false) ∧
    (∀ fuel d t best acc, clock t = false →
      alpha_betaT clock root d root ⊥ ⊤ true (t + 1) = .error () →
      driverLoopT clock root (fuel + 1) d t best acc = (acc, best)) ∧
    (∀ fuel d t best acc,
      ((driverLoopT clock root fuel d t best acc).2 = best ∨
        ∃ d' t0 v t1, alpha_betaT clock root d' root ⊥ ⊤ true t0 =
          .ok ((v, some ((driverLoopT clock root fuel d t best acc).2)), t1)) ∧
      (∀ mv ∈ (driverLoopT clock root fuel d t best acc).1, mv ∈ acc ∨
        ∃ d' t0 v t1, alpha_betaT clock root d' root ⊥ ⊤ true t0 =
          .ok ((v, some mv), t1))) := by
  exact ⟨fun depth gs a b mx t h => alpha_betaT_timeout clock root depth gs a b mx t h,
    fun d gs a b mx t r t' h => alpha_betaT_ticks clock root d gs a b mx t r t' h,
    fun fuel d t best acc hc herr => driverLoopT_discard clock root fuel d t best acc hc herr,
    fun fuel d t best acc => driverLoopT_spec clock root fuel d t best acc⟩

/-- Witness for C5 at a concrete input: under a clock whose deadline has
passed at tick 1, the depth-1 search entered at tick 1 raises the
cancellation. -/
theorem timeout_discards_partial_depth_witness :
    alpha_betaT clock1 root1 1 root1 ⊥ ⊤ true 1 = .error () :=
  (timeout_discards_partial_depth clock1 root1).1 1 root1 ⊥ ⊤ true 1 (by decide)
